import Mathlib

/-!
Shallow embedding of the composefs writer (src/libcomposefs/lcfs-writer.c).

Byte strings are `List Nat` (each entry a byte value).  Nodes are stored in a
flat list and referenced by position, mirroring the C pointer graph: a child
list holds node indices, and `linkTo` holds the index of a hardlink target.
The on-disk record layouts (superblock, inode record, dirent record, xattr
header) live in the missing header `lcfs.h`; they are modelled from the spec
(section 4.4 to 4.6): all integers little-endian, a canonical packed layout.
-/

/-- Little-endian encoding of the low 16 bits of a natural number. -/
def le16 (x : Nat) : List Nat := [x % 256, x / 256 % 256]

/-- Little-endian encoding of the low 32 bits of a natural number. -/
def le32 (x : Nat) : List Nat :=
  [x % 256, x / 256 % 256, x / 65536 % 256, x / 16777216 % 256]

/-- Little-endian encoding of the low 64 bits of a natural number. -/
def le64 (x : Nat) : List Nat :=
  [x % 256, x / 256 % 256, x / 65536 % 256, x / 16777216 % 256,
   x / 4294967296 % 256, x / 1099511627776 % 256,
   x / 281474976710656 % 256, x / 72057594037927936 % 256]

/-- File-type test for the directory bit pattern, as `(m & S_IFMT) == S_IFDIR`. -/
def isDirMode (m : Nat) : Bool := m &&& 0o170000 == 0o040000

/-- File-type test for regular files, as `(m & S_IFMT) == S_IFREG`. -/
def isRegMode (m : Nat) : Bool := m &&& 0o170000 == 0o100000

/-- File-type test for symlinks, as `(m & S_IFMT) == S_IFLNK`. -/
def isLnkMode (m : Nat) : Bool := m &&& 0o170000 == 0o120000

/-- Translation of `node_get_dtype`: the d_type value derived from a mode. -/
def node_get_dtype (m : Nat) : Nat :=
  if m &&& 0o170000 == 0o120000 then 10
  else if m &&& 0o170000 == 0o040000 then 4
  else if m &&& 0o170000 == 0o100000 then 8
  else if m &&& 0o170000 == 0o060000 then 6
  else if m &&& 0o170000 == 0o020000 then 2
  else if m &&& 0o170000 == 0o140000 then 12
  else if m &&& 0o170000 == 0o010000 then 1
  else 0

/-- In-memory node, translating `struct lcfs_node_s` together with the
embedded `struct lcfs_inode_s`.  `children` and `linkTo` hold indices into the
node store.  The fields `vdOff`/`vdLen`, `xaOff`/`xaLen`, `dgOff`/`dgLen`
are the inode's `variable_data`, `xattrs` and `digest` slots; a fresh node has
them zeroed (the C side `calloc`s the node). -/
structure NodeData where
  mode : Nat := 0
  uid : Nat := 0
  gid : Nat := 0
  rdev : Nat := 0
  size : Nat := 0
  nlink : Nat := 1
  mtimSec : Nat := 0
  mtimNsec : Nat := 0
  ctimSec : Nat := 0
  ctimNsec : Nat := 0
  name : List Nat := []
  payload : List Nat := []
  children : List Nat := []
  linkTo : Option Nat := none
  xattrs : List (List Nat × List Nat) := []
  digestSet : Bool := false
  digest : List Nat := []
  inodeNum : Nat := 0
  inTree : Bool := false
  vdOff : Nat := 0
  vdLen : Nat := 0
  xaOff : Nat := 0
  xaLen : Nat := 0
  dgOff : Nat := 0
  dgLen : Nat := 0
deriving DecidableEq

/-- Default node (all-zero, as calloc produces, with nlink from `lcfs_node_new`). -/
def d0 : NodeData := {}

/-- Node store lookup; out-of-range indices give the default node. -/
def getN (nodes : List NodeData) (n : Nat) : NodeData := nodes.getD n d0

/-- A node tree: the node store plus the root index. -/
structure FS where
  nodes : List NodeData
  root : Nat
deriving DecidableEq

/-- Byte-lexicographic ordering test, the ordering induced by `strcmp` on
NUL-free strings: `lexLe a b` holds when `strcmp(a, b) <= 0`. -/
def lexLe : List Nat → List Nat → Bool
  | [], _ => true
  | _ :: _, [] => false
  | a :: as, b :: bs =>
    if a < b then true else if b < a then false else lexLe as bs

/-- Canonical child sort used by `compute_tree` (`qsort` with `cmp_nodes`),
keyed by the child's name through the lookup function `f`. -/
def chSortCanon (f : Nat → List Nat) (l : List Nat) : List Nat :=
  List.insertionSort (fun a b => lexLe (f a) (f b) = true) l

/-- Canonical xattr sort used by `compute_tree` (`qsort` with `cmp_xattr`). -/
def xaSortCanon (l : List (List Nat × List Nat)) : List (List Nat × List Nat) :=
  List.insertionSort (fun a b => lexLe a.1 b.1 = true) l

/-- The updated record of a node being visited by `compute_tree`: the
directory nlink fixed to 2 plus the number of directory children, children
sorted by name and xattrs by key (through the supplied sort functions, which
abstract the unspecified tie behaviour of `qsort`), the inode index assigned,
and the in-tree mark set. -/
def visitNode (sc : (Nat → List Nat) → List Nat → List Nat)
    (sx : List (List Nat × List Nat) → List (List Nat × List Nat))
    (nodes : List NodeData) (n idx : Nat) : NodeData :=
  let nd := getN nodes n
  { nd with
    nlink := if isDirMode nd.mode then
        2 + nd.children.countP (fun c => isDirMode (getN nodes c).mode)
      else nd.nlink,
    children := sc (fun c => (getN nodes c).name) nd.children,
    xattrs := sx nd.xattrs, inodeNum := idx, inTree := true }

/-- The children a visit pushes on the queue: none when the visited node is a
hardlink alias, else its (now sorted) children. -/
def visitEnq (sc : (Nat → List Nat) → List Nat → List Nat)
    (sx : List (List Nat × List Nat) → List (List Nat × List Nat))
    (nodes : List NodeData) (n idx : Nat) : List Nat :=
  if (getN nodes n).linkTo.isSome then [] else (visitNode sc sx nodes n idx).children

/-- One visit of `compute_tree`: validate that only directories have
children, fix up the directory nlink, sort, assign the inode index, mark the
node in-tree, and fail when an enqueued child is already in-tree (the C
assertion). -/
def visitStep (sc : (Nat → List Nat) → List Nat → List Nat)
    (sx : List (List Nat × List Nat) → List (List Nat × List Nat))
    (nodes : List NodeData) (n idx : Nat) :
    Except Unit (List NodeData × List Nat) :=
  let nd := getN nodes n
  if !isDirMode nd.mode && !nd.children.isEmpty then .error ()
  else
    let nodes2 := nodes.set n (visitNode sc sx nodes n idx)
    let enq := visitEnq sc sx nodes n idx
    if enq.any (fun c => (getN nodes2 c).inTree) then .error ()
    else .ok (nodes2, enq)

/-- The breadth-first walk over the node queue: visit the head, push its
children, recurse on the rest.  Fuel only limits the number of visits; the C
code has no such bound (it would not terminate on a cyclic store, which the
pointer-based C tree cannot express). -/
def computeTreeAux (sc : (Nat → List Nat) → List Nat → List Nat)
    (sx : List (List Nat × List Nat) → List (List Nat × List Nat))
    (fuel : Nat) (nodes : List NodeData) (queue : List Nat) (idx : Nat) :
    Except Unit (List NodeData × List Nat) :=
  match queue with
  | [] => .ok (nodes, [])
  | n :: rest =>
    match fuel with
    | 0 => .error ()
    | fuel + 1 =>
      match visitStep sc sx nodes n idx with
      | .error e => .error e
      | .ok (nodes2, enq) =>
        match computeTreeAux sc sx fuel nodes2 (rest ++ enq) (idx + 1) with
        | .error e => .error e
        | .ok (fin, vis) => .ok (fin, n :: vis)

/-- Translation of `compute_tree`: mark the root in-tree and walk the queue
seeded with the root, numbering inodes from 0. -/
def compute_tree (sc : (Nat → List Nat) → List Nat → List Nat)
    (sx : List (List Nat × List Nat) → List (List Nat × List Nat))
    (fs : FS) : Except Unit (List NodeData × List Nat) :=
  let nodes0 := fs.nodes.set fs.root { getN fs.nodes fs.root with inTree := true }
  computeTreeAux sc sx (fs.nodes.length + 1) nodes0 [fs.root] 0

/-- Translation of `follow_links`: chase `link_to` to the terminal node.  The
C version recurses without bound; the model carries fuel, which suffices for
every chain the reference-counted C tree can build (chains are acyclic). -/
def follow_links (nodes : List NodeData) (fuel n : Nat) : Nat :=
  match fuel with
  | 0 => n
  | fuel + 1 =>
    match (getN nodes n).linkTo with
    | some t => follow_links nodes fuel t
    | none => n

/-- The variable-data arena (`ctx->vdata` plus the dedup hash table).  The
dedup index stores the (offset, length) pairs of previously indexed ranges;
equality is byte-exact over the stored range, as in `vdata_ht_comparator`. -/
structure Ctx where
  vdata : List Nat := []
  index : List (Nat × Nat) := []
deriving DecidableEq

/-- The byte range `[off, off+len)` of an arena buffer. -/
def extractRange (v : List Nat) (off len : Nat) : List Nat := (v.drop off).take len

/-- Dedup lookup: find an indexed range of the same length with equal bytes. -/
def dedupLookup (v : List Nat) (idx : List (Nat × Nat)) (data : List Nat) :
    Option (Nat × Nat) :=
  idx.find? (fun e => e.2 == data.length && extractRange v e.1 e.2 == data)

/-- An (offset, length) reference into the arena, as `struct lcfs_vdata_s`. -/
structure Vdata where
  off : Nat
  len : Nat
deriving DecidableEq

/-- The fresh-append path of `lcfs_append_vdata`: pad to a 4-byte boundary
when requested, copy the bytes, and index the new range unless an equal range
is already indexed (`hash_insert` keeps the existing entry). -/
def appendFresh (ctx : Ctx) (data : List Nat) (align : Bool) : Ctx × Vdata :=
  let pad := if align && ctx.vdata.length % 4 != 0 then 4 - ctx.vdata.length % 4 else 0
  let off := ctx.vdata.length + pad
  let v2 := ctx.vdata ++ List.replicate pad 0 ++ data
  let idx2 := if (dedupLookup v2 ctx.index data).isSome then ctx.index
              else (off, data.length) :: ctx.index
  ({ vdata := v2, index := idx2 }, { off := off, len := data.length })

/-- Translation of `lcfs_append_vdata` with the two flag bits as booleans. -/
def lcfs_append_vdata (ctx : Ctx) (data : List Nat) (dedup align : Bool) :
    Ctx × Vdata :=
  if dedup then
    match dedupLookup ctx.vdata ctx.index data with
    | some e => (ctx, { off := e.1, len := e.2 })
    | none => appendFresh ctx data align
  else appendFresh ctx data align

/-- One dirent record of a directory block, before encoding
(`struct lcfs_dirent_s`). -/
structure DirentRec where
  inode_num : Nat
  d_type : Nat
  name_len : Nat
  name_offset : Nat
deriving DecidableEq

/-- The dirent records of a directory block, one per child in order, with the
running name offset, translating the loop of `compute_dirents`: the inode
number and d_type come from the hardlink-resolved target child. -/
def direntEntries (nodes : List NodeData) (off : Nat) :
    List Nat → List DirentRec
  | [] => []
  | c :: cs =>
    let t := follow_links nodes nodes.length c
    let nl := (getN nodes c).name.length
    { inode_num := (getN nodes t).inodeNum,
      d_type := node_get_dtype (getN nodes t).mode,
      name_len := nl, name_offset := off } :: direntEntries nodes (off + nl) cs

/-- Encoding of one dirent record, modelled from the spec: target inode index
(u32), d_type (u8), name length (u8), name offset (u32), one padding byte. -/
def direntRecBytes (r : DirentRec) : List Nat :=
  le32 r.inode_num ++ [r.d_type % 256, r.name_len % 256] ++ le32 r.name_offset ++ [0]

/-- A directory block: entry count, the dirent records, then the packed name
area, per `compute_dirents` with the header layout modelled from the spec. -/
def direntBlockBytes (nodes : List NodeData) (children : List Nat) : List Nat :=
  le32 children.length ++ ((direntEntries nodes 0 children).map direntRecBytes).flatten
    ++ (children.map (fun c => (getN nodes c).name)).flatten

/-- Directory part of the `compute_variable_data` loop body: a directory with
children gets its dirent block appended aligned and not deduped; a child name
longer than the 255-byte cap is an error (`compute_dirents_size`). -/
def vdDirStep (nodes : List NodeData) (ctx : Ctx) (n : Nat) :
    Except Unit (List NodeData × Ctx) :=
  let nd := getN nodes n
  if isDirMode nd.mode && !nd.children.isEmpty then
    if nd.children.any (fun c => 255 < (getN nodes c).name.length) then .error ()
    else
      let r := lcfs_append_vdata ctx (direntBlockBytes nodes nd.children) false true
      .ok (nodes.set n { nd with vdOff := r.2.off, vdLen := r.2.len }, r.1)
  else .ok (nodes, ctx)

/-- Payload part of the loop body: a regular file of nonzero size, or a
symlink, with a non-empty payload gets the payload appended deduped and
unaligned. -/
def vdPayloadStep (nodes : List NodeData) (ctx : Ctx) (n : Nat) :
    List NodeData × Ctx :=
  let nd := getN nodes n
  if (isRegMode nd.mode && nd.size != 0 || isLnkMode nd.mode)
      && !nd.payload.isEmpty then
    let r := lcfs_append_vdata ctx nd.payload true false
    (nodes.set n { nd with vdOff := r.2.off, vdLen := r.2.len }, r.1)
  else (nodes, ctx)

/-- Digest part of the loop body: a node with a digest set gets the digest
bytes appended deduped and unaligned. -/
def vdDigestStep (nodes : List NodeData) (ctx : Ctx) (n : Nat) :
    List NodeData × Ctx :=
  let nd := getN nodes n
  if nd.digestSet then
    let r := lcfs_append_vdata ctx nd.digest true false
    (nodes.set n { nd with dgOff := r.2.off, dgLen := r.2.len }, r.1)
  else (nodes, ctx)

/-- Per-node step of `compute_variable_data`: directory block, then payload,
then digest. -/
def vdataNodeStep (nodes : List NodeData) (ctx : Ctx) (n : Nat) :
    Except Unit (List NodeData × Ctx) := do
  let (nodes1, ctx1) ← vdDirStep nodes ctx n
  let (nodes2, ctx2) := vdPayloadStep nodes1 ctx1 n
  return vdDigestStep nodes2 ctx2 n

/-- Translation of `compute_variable_data`: the per-node step over the
breadth-first node order. -/
def computeVariableData (nodes : List NodeData) (ctx : Ctx) :
    List Nat → Except Unit (List NodeData × Ctx)
  | [] => .ok (nodes, ctx)
  | n :: rest => do
    let (ns, c) ← vdataNodeStep nodes ctx n
    computeVariableData ns c rest

/-- An xattr block: entry count (u16), the (key length, value length) pairs
(u16 each), then keys and values concatenated in entry order, per
`compute_xattrs` with the header layout modelled from the spec. -/
def xattrBlockBytes (xs : List (List Nat × List Nat)) : List Nat :=
  le16 xs.length ++ ((xs.map (fun x => le16 x.1.length ++ le16 x.2.length)).flatten)
    ++ ((xs.map (fun x => x.1 ++ x.2)).flatten)

/-- Per-node step of `compute_xattrs`: nodes with at least one xattr get their
block appended deduped and aligned, and the resulting range stored. -/
def xattrNodeStep (nodes : List NodeData) (ctx : Ctx) (n : Nat) :
    List NodeData × Ctx :=
  let nd := getN nodes n
  if nd.xattrs.isEmpty then (nodes, ctx)
  else
    let r := lcfs_append_vdata ctx (xattrBlockBytes nd.xattrs) true true
    (nodes.set n { nd with xaOff := r.2.off, xaLen := r.2.len }, r.1)

/-- Translation of `compute_xattrs` over the breadth-first node order. -/
def computeXattrs (nodes : List NodeData) (ctx : Ctx) :
    List Nat → List NodeData × Ctx
  | [] => (nodes, ctx)
  | n :: rest =>
    let (ns, c) := xattrNodeStep nodes ctx n
    computeXattrs ns c rest

/-- Modelled from the spec: the magic constant of the missing `lcfs.h`.  Its
value does not affect any property proved here. -/
def LCFS_MAGIC : Nat := 0x2cab1844

/-- Modelled from the spec: the version constant of the missing `lcfs.h`. -/
def LCFS_VERSION : Nat := 1

/-- Size of the packed inode record, modelled from the spec layout:
ten u32 fields and six u64 fields. -/
def inodeSize : Nat := 88

/-- Size of the packed superblock: magic (u32), version (u32), vdata offset
(u64), modelled from the spec. -/
def superblockSize : Nat := 16

/-- The superblock bytes: magic, version, then the vdata offset. -/
def superblockBytes (dataOffset : Nat) : List Nat :=
  le32 LCFS_MAGIC ++ le32 LCFS_VERSION ++ le64 dataOffset

/-- Encoding of one inode record (`write_inode_data`), all little-endian in
the spec's canonical packed order. -/
def inodeRecordBytes (nd : NodeData) : List Nat :=
  le32 nd.mode ++ le32 nd.nlink ++ le32 nd.uid ++ le32 nd.gid ++ le32 nd.rdev
    ++ le64 nd.size ++ le64 nd.mtimSec ++ le32 nd.mtimNsec
    ++ le64 nd.ctimSec ++ le32 nd.ctimNsec
    ++ le64 nd.vdOff ++ le32 nd.vdLen ++ le64 nd.xaOff ++ le32 nd.xaLen
    ++ le64 nd.dgOff ++ le32 nd.dgLen

/-- The inode table: one record per node in breadth-first order
(`write_inodes`). -/
def inodeTableBytes (nodes : List NodeData) (vis : List Nat) : List Nat :=
  (vis.map (fun n => inodeRecordBytes (getN nodes n))).flatten

/-- Rounding up to a multiple of 4, as `ALIGN_TO(x, 4)`. -/
def align4 (x : Nat) : Nat := (x + 3) / 4 * 4

/-- The outcome of a successful `lcfs_write_to`: the bytes handed to the sink
in order, plus the final node store, visit order, arena and data offset, kept
for stating properties of the run. -/
structure WriteResult where
  out : List Nat
  visited : List Nat
  nodes : List NodeData
  ctx : Ctx
  dataOffset : Nat
deriving DecidableEq

/-- Translation of `lcfs_write_to`, parametric in the two sort functions used
by `compute_tree`: canonicalize, compute variable data and xattr blocks, then
emit superblock, inode table, padding up to the data offset, and the arena.
The C code skips padding and arena when no arena buffer was ever allocated,
which is exactly the case of an empty arena. -/
def lcfs_write_to_with (sc : (Nat → List Nat) → List Nat → List Nat)
    (sx : List (List Nat × List Nat) → List (List Nat × List Nat))
    (fs : FS) : Except Unit WriteResult := do
  let (nodes1, vis) ← compute_tree sc sx fs
  let dataOffset := align4 (superblockSize + inodeSize * vis.length)
  let (nodes2, ctx1) ← computeVariableData nodes1 { vdata := [], index := [] } vis
  let (nodes3, ctx2) := computeXattrs nodes2 ctx1 vis
  let header := superblockBytes dataOffset ++ inodeTableBytes nodes3 vis
  let out := if ctx2.vdata.length != 0 then
      header ++ List.replicate (dataOffset - header.length) 0 ++ ctx2.vdata
    else header
  return { out := out, visited := vis, nodes := nodes3, ctx := ctx2,
           dataOffset := dataOffset }

/-- The serialization entry point with the canonical (`qsort`-like) sorts. -/
def lcfs_write_to (fs : FS) : Except Unit WriteResult :=
  lcfs_write_to_with chSortCanon xaSortCanon fs

/-- Translation of `lcfs_node_get_child`: the i-th child, if in range. -/
def lcfs_node_get_child (nd : NodeData) (i : Nat) : Option Nat :=
  if i < nd.children.length then some (nd.children.getD i 0) else none

/-- Translation of `find_xattr`: index of the first xattr with the given key. -/
def find_xattr (nd : NodeData) (name : List Nat) : Option Nat :=
  nd.xattrs.findIdx? (fun x => x.1 == name)

/-- Translation of `lcfs_node_unset_xattr`: when the key is found, the last
entry is swapped into its slot and the count decremented; the function
returns -1 on every path, as the C code does. -/
def lcfs_node_unset_xattr (nd : NodeData) (name : List Nat) : Int × NodeData :=
  match find_xattr nd name with
  | some i =>
    let m := nd.xattrs.length
    let xs := if i != m - 1 then nd.xattrs.set i (nd.xattrs.getD (m - 1) ([], []))
              else nd.xattrs
    (-1, { nd with xattrs := xs.take (m - 1) })
  | none => (-1, nd)

/-- Whether a `lcfs_write_to` run succeeds. -/
def writeOk (fs : FS) : Bool :=
  match lcfs_write_to fs with
  | .ok _ => true
  | .error _ => false

/-- The result of a successful `lcfs_write_to` run (junk on failure). -/
def writeRes (fs : FS) : WriteResult :=
  match lcfs_write_to fs with
  | .ok r => r
  | .error _ => { out := [], visited := [], nodes := [], ctx := { vdata := [], index := [] }, dataOffset := 0 }

/-- Example tree: a root directory holding one regular file named a with a
five-byte backing payload. -/
def fsA : FS :=
  ⟨[{ mode := 0o40755, children := [1] },
    { mode := 0o100644, size := 5, name := [97], payload := [98, 108, 111, 98, 49] }], 0⟩

/-- Example tree: a root directory with an xattr whose serialized block is
byte-identical to the digest of its child file.  The digest is appended to the
arena first, unaligned; the xattr block then dedups against it. -/
def fsC5 : FS :=
  ⟨[{ mode := 0o40755, children := [1],
      xattrs := [([65], List.replicate 25 66)] },
    { mode := 0o100644, size := 5, name := [97], payload := [120, 121, 122],
      digestSet := true,
      digest := [1, 0, 1, 0, 25, 0, 65] ++ List.replicate 25 66 }], 0⟩

/-- Example tree: a root directory with a regular file named orig and a
hardlink alias to it named alias, as the public API would build it
(`lcfs_node_make_hardlink` bumps the target's nlink). -/
def fsHL : FS :=
  ⟨[{ mode := 0o40755, children := [1, 2] },
    { mode := 0o100644, size := 3, name := [111, 114, 105, 103],
      payload := [120], nlink := 2 },
    { name := [97, 108, 105, 97, 115], linkTo := some 1 }], 0⟩

/-- Example tree: a root directory with an empty regular file that has a
payload string set regardless. -/
def fsE : FS :=
  ⟨[{ mode := 0o40755, children := [1] },
    { mode := 0o100644, size := 0, name := [101], payload := [120, 121] }], 0⟩

/-- C10: `lcfs_node_get_child` returns the i-th child exactly when `i` is
below the children count, and nothing otherwise. -/
theorem get_child_in_range (nd : NodeData) (i : Nat) :
    (i < nd.children.length → lcfs_node_get_child nd i = some (nd.children.getD i 0)) ∧
    (nd.children.length ≤ i → lcfs_node_get_child nd i = none) := by
  refine ⟨fun h => ?_, fun h => ?_⟩
  · simp [lcfs_node_get_child, h]
  · simp [lcfs_node_get_child, Nat.not_lt.mpr h]

/-- Witness for C10 at a concrete two-child node. -/
theorem get_child_in_range_witness :
    lcfs_node_get_child { children := [5, 7] } 1 = some 7 ∧
    lcfs_node_get_child { children := [5, 7] } 2 = none :=
  ⟨(get_child_in_range { children := [5, 7] } 1).1 (by decide),
   (get_child_in_range { children := [5, 7] } 2).2 (by decide)⟩

/-- C8: `lcfs_node_unset_xattr` on a node holding exactly the key user.a does
remove the entry, yet returns -1 rather than 0: the success path reports an
error code, contradicting the documented contract. -/
theorem unset_xattr_removes_but_returns_error :
    lcfs_node_unset_xattr
        { xattrs := [([117, 115, 101, 114, 46, 97], [49])] }
        [117, 115, 101, 114, 46, 97] =
      (-1, { xattrs := [] }) ∧ (-1 : Int) ≠ 0 := by
  refine ⟨?_, by decide⟩
  rfl

/-- C7: an aligned append that misses the dedup index pads the arena with
zeros to the next multiple of 4, reports the post-padding offset and the exact
input length (the padding is never counted), and stores the bytes verbatim at
that offset. -/
theorem append_align_fresh (ctx : Ctx) (data : List Nat) (dedup : Bool)
    (hmiss : dedup = true → dedupLookup ctx.vdata ctx.index data = none) :
    (lcfs_append_vdata ctx data dedup true).2.off = align4 ctx.vdata.length ∧
    (lcfs_append_vdata ctx data dedup true).2.len = data.length ∧
    (lcfs_append_vdata ctx data dedup true).1.vdata =
      ctx.vdata ++ List.replicate (align4 ctx.vdata.length - ctx.vdata.length) 0 ++ data ∧
    extractRange (lcfs_append_vdata ctx data dedup true).1.vdata
      (lcfs_append_vdata ctx data dedup true).2.off data.length = data := by
  have hfresh : lcfs_append_vdata ctx data dedup true = appendFresh ctx data true := by
    cases dedup with
    | false => rfl
    | true => simp [lcfs_append_vdata, hmiss rfl]
  have hpad : ∀ L : Nat, (L + if (true && L % 4 != 0) = true then 4 - L % 4 else 0) =
      align4 L := by
    intro L
    by_cases h4 : L % 4 = 0
    · rw [if_neg]
      · unfold align4; omega
      · simp [h4]
    · rw [if_pos]
      · unfold align4; omega
      · simp [h4]
  rw [hfresh]
  refine ⟨?_, rfl, ?_, ?_⟩
  · simpa [appendFresh] using hpad ctx.vdata.length
  · simp only [appendFresh]
    rw [← hpad ctx.vdata.length]
    simp
  · simp only [appendFresh, extractRange]
    have hlen : (ctx.vdata ++ List.replicate
        (if (true && ctx.vdata.length % 4 != 0) = true then 4 - ctx.vdata.length % 4 else 0) 0).length =
        ctx.vdata.length +
          (if (true && ctx.vdata.length % 4 != 0) = true then 4 - ctx.vdata.length % 4 else 0) := by
      simp
    rw [← hlen, List.drop_left, List.take_length]

/-- Updating slot `n` changes exactly the in-range entry `n` of the store. -/
theorem getN_set (nodes : List NodeData) (n : Nat) (nd : NodeData) (m : Nat) :
    getN (nodes.set n nd) m = if m = n ∧ n < nodes.length then nd else getN nodes m := by
  by_cases h1 : m = n
  · subst h1
    by_cases h2 : m < nodes.length
    · simp [getN, List.getD, List.get?_eq_getElem?, List.getElem?_set_self h2, h2]
    · rw [List.set_eq_of_length_le (Nat.le_of_not_lt h2)]
      simp [h2]
  · simp only [getN, List.getD, List.get?_eq_getElem?]
    rw [List.getElem?_set_ne (Ne.symm h1)]
    simp [h1]

/-- Node fields that `compute_tree` never alters; children and xattr lists
are only reordered. -/
def treePres (a b : NodeData) : Prop :=
  b.mode = a.mode ∧ b.size = a.size ∧ b.name = a.name ∧ b.linkTo = a.linkTo ∧
  b.payload = a.payload ∧ b.digestSet = a.digestSet ∧ b.digest = a.digest ∧
  b.vdOff = a.vdOff ∧ b.vdLen = a.vdLen ∧ b.children.Perm a.children ∧
  b.xattrs.Perm a.xattrs

theorem treePres_refl (a : NodeData) : treePres a a :=
  ⟨rfl, rfl, rfl, rfl, rfl, rfl, rfl, rfl, rfl, List.Perm.refl _, List.Perm.refl _⟩

theorem treePres_trans {a b c : NodeData} (h1 : treePres a b) (h2 : treePres b c) :
    treePres a c := by
  obtain ⟨a1, a2, a3, a4, a5, a6, a7, a8, a9, a10, a11⟩ := h1
  obtain ⟨b1, b2, b3, b4, b5, b6, b7, b8, b9, b10, b11⟩ := h2
  exact ⟨b1.trans a1, b2.trans a2, b3.trans a3, b4.trans a4, b5.trans a5,
    b6.trans a6, b7.trans a7, b8.trans a8, b9.trans a9, b10.trans a10, b11.trans a11⟩

/-- A successful visit produces exactly the node update and queue push of
`visitNode` and `visitEnq`. -/
theorem visitStep_ok {sc : (Nat → List Nat) → List Nat → List Nat}
    {sx : List (List Nat × List Nat) → List (List Nat × List Nat)}
    {nodes : List NodeData} {n idx : Nat} {p : List NodeData × List Nat}
    (h : visitStep sc sx nodes n idx = .ok p) :
    p = (nodes.set n (visitNode sc sx nodes n idx), visitEnq sc sx nodes n idx) := by
  simp only [visitStep] at h
  split at h
  · exact absurd h (by simp)
  · split at h
    · exact absurd h (by simp)
    · simp only [Except.ok.injEq] at h
      exact h.symm

/-- A single visit preserves the static fields of every node and only
permutes child and xattr lists, given permuting sort functions. -/
theorem visitNode_treePres {sc : (Nat → List Nat) → List Nat → List Nat}
    {sx : List (List Nat × List Nat) → List (List Nat × List Nat)}
    (hscp : ∀ f l, (sc f l).Perm l) (hsxp : ∀ l, (sx l).Perm l)
    (nodes : List NodeData) (n idx m : Nat) :
    treePres (getN nodes m) (getN (nodes.set n (visitNode sc sx nodes n idx)) m) := by
  rw [getN_set]
  split
  · rename_i hmn
    obtain ⟨hmn', -⟩ := hmn
    subst hmn'
    exact ⟨rfl, rfl, rfl, rfl, rfl, rfl, rfl, rfl, rfl, hscp _ _, hsxp _⟩
  · exact treePres_refl _

/-- The breadth-first walk preserves every node's static fields and only
permutes child and xattr lists, given permuting sort functions. -/
theorem computeTreeAux_pres {sc : (Nat → List Nat) → List Nat → List Nat}
    {sx : List (List Nat × List Nat) → List (List Nat × List Nat)}
    (hscp : ∀ f l, (sc f l).Perm l) (hsxp : ∀ l, (sx l).Perm l) :
    ∀ (fuel : Nat) (queue : List Nat) (nodes : List NodeData) (idx : Nat)
      (fin : List NodeData) (vis : List Nat),
      computeTreeAux sc sx fuel nodes queue idx = .ok (fin, vis) →
      ∀ m, treePres (getN nodes m) (getN fin m) := by
  intro fuel
  induction fuel with
  | zero =>
    intro queue nodes idx fin vis h m
    cases queue with
    | nil =>
      simp only [computeTreeAux, Except.ok.injEq, Prod.mk.injEq] at h
      rw [← h.1]; exact treePres_refl _
    | cons n rest => simp [computeTreeAux] at h
  | succ f ih =>
    intro queue nodes idx fin vis h m
    cases queue with
    | nil =>
      simp only [computeTreeAux, Except.ok.injEq, Prod.mk.injEq] at h
      rw [← h.1]; exact treePres_refl _
    | cons n rest =>
      simp only [computeTreeAux] at h
      split at h
      · exact absurd h (by simp)
      · rename_i nodes2 enq hstep
        have hp := visitStep_ok hstep
        simp only [Prod.mk.injEq] at hp
        obtain ⟨rfl, rfl⟩ := hp
        split at h
        · exact absurd h (by simp)
        · rename_i fin2 vis2 heq
          simp only [Except.ok.injEq, Prod.mk.injEq] at h
          obtain ⟨hfin, -⟩ := h
          subst hfin
          exact treePres_trans (visitNode_treePres hscp hsxp nodes n idx m)
            (ih _ _ _ _ _ heq m)

/-- Out-of-range lookups give the default node. -/
theorem getN_out {nodes : List NodeData} {m : Nat} (h : nodes.length ≤ m) :
    getN nodes m = d0 := by
  simp [getN, List.getD, List.get?_eq_getElem?, List.getElem?_eq_none h]

/-- Child indices stay inside the store (checked over the in-range slots;
out-of-range slots read as the childless default node). -/
def IdsOk (nodes : List NodeData) : Prop :=
  ∀ m, m < nodes.length → ∀ c ∈ (getN nodes m).children, c < nodes.length

instance (nodes : List NodeData) : Decidable (IdsOk nodes) := by
  unfold IdsOk; infer_instance

/-- Every child index is in range, also when read through a default slot. -/
theorem idsOk_all {nodes : List NodeData} (h : IdsOk nodes) (m : Nat) :
    ∀ c ∈ (getN nodes m).children, c < nodes.length := by
  by_cases hm : m < nodes.length
  · exact h m hm
  · rw [getN_out (Nat.le_of_not_lt hm)]
    intro c hc
    simp [d0] at hc

/-- A visit update keeps all child indices in range. -/
theorem idsOk_visit {sc : (Nat → List Nat) → List Nat → List Nat}
    {sx : List (List Nat × List Nat) → List (List Nat × List Nat)}
    (hscp : ∀ f l, (sc f l).Perm l) {nodes : List NodeData} (h : IdsOk nodes)
    (n idx : Nat) : IdsOk (nodes.set n (visitNode sc sx nodes n idx)) := by
  intro m hm c hc
  rw [List.length_set] at hm
  rw [getN_set] at hc
  simp only [List.length_set]
  split at hc
  · rename_i hcond
    obtain ⟨rfl, -⟩ := hcond
    have : c ∈ (getN nodes m).children := by
      have hperm : (visitNode sc sx nodes m idx).children.Perm (getN nodes m).children :=
        hscp _ _
      exact hperm.mem_iff.mp hc
    exact idsOk_all h m c this
  · exact idsOk_all h m c hc

/-- Nodes not on the visit list are untouched by the walk. -/
theorem computeTreeAux_untouched {sc : (Nat → List Nat) → List Nat → List Nat}
    {sx : List (List Nat × List Nat) → List (List Nat × List Nat)} :
    ∀ (fuel : Nat) (queue : List Nat) (nodes : List NodeData) (idx : Nat)
      (fin : List NodeData) (vis : List Nat),
      computeTreeAux sc sx fuel nodes queue idx = .ok (fin, vis) →
      ∀ m, m ∉ vis → getN fin m = getN nodes m := by
  intro fuel
  induction fuel with
  | zero =>
    intro queue nodes idx fin vis h m hm
    cases queue with
    | nil =>
      simp only [computeTreeAux, Except.ok.injEq, Prod.mk.injEq] at h
      rw [← h.1]
    | cons n rest => simp [computeTreeAux] at h
  | succ f ih =>
    intro queue nodes idx fin vis h m hm
    cases queue with
    | nil =>
      simp only [computeTreeAux, Except.ok.injEq, Prod.mk.injEq] at h
      rw [← h.1]
    | cons n rest =>
      simp only [computeTreeAux] at h
      split at h
      · exact absurd h (by simp)
      · rename_i nodes2 enq hstep
        have hp := visitStep_ok hstep
        simp only [Prod.mk.injEq] at hp
        obtain ⟨rfl, rfl⟩ := hp
        split at h
        · exact absurd h (by simp)
        · rename_i fin2 vis2 heq
          simp only [Except.ok.injEq, Prod.mk.injEq] at h
          obtain ⟨hfin, hvis⟩ := h
          subst hfin
          rw [← hvis] at hm
          have hmn : m ≠ n := fun hc => hm (hc ▸ List.mem_cons_self _ _)
          have hmv : m ∉ vis2 := fun hc => hm (List.mem_cons_of_mem _ hc)
          rw [ih _ _ _ _ _ heq m hmv, getN_set]
          simp [hmn]

/-- Everything on the queue is eventually visited. -/
theorem computeTreeAux_mem {sc : (Nat → List Nat) → List Nat → List Nat}
    {sx : List (List Nat × List Nat) → List (List Nat × List Nat)} :
    ∀ (fuel : Nat) (queue : List Nat) (nodes : List NodeData) (idx : Nat)
      (fin : List NodeData) (vis : List Nat),
      computeTreeAux sc sx fuel nodes queue idx = .ok (fin, vis) →
      ∀ x ∈ queue, x ∈ vis := by
  intro fuel
  induction fuel with
  | zero =>
    intro queue nodes idx fin vis h x hx
    cases queue with
    | nil => simp at hx
    | cons n rest => simp [computeTreeAux] at h
  | succ f ih =>
    intro queue nodes idx fin vis h x hx
    cases queue with
    | nil => simp at hx
    | cons n rest =>
      simp only [computeTreeAux] at h
      split at h
      · exact absurd h (by simp)
      · rename_i nodes2 enq hstep
        split at h
        · exact absurd h (by simp)
        · rename_i fin2 vis2 heq
          simp only [Except.ok.injEq, Prod.mk.injEq] at h
          obtain ⟨-, hvis⟩ := h
          rw [← hvis]
          rcases List.mem_cons.mp hx with hx | hx
          · exact hx ▸ List.mem_cons_self _ _
          · exact List.mem_cons_of_mem _
              (ih _ _ _ _ _ heq x (List.mem_append_left _ hx))

/-- Each visited node's final record is the visit update of some intermediate
store that the walk reaches from the start store, with the inode index equal
to the node's position in the visit order. -/
theorem computeTreeAux_visited {sc : (Nat → List Nat) → List Nat → List Nat}
    {sx : List (List Nat × List Nat) → List (List Nat × List Nat)}
    (hscp : ∀ f l, (sc f l).Perm l) (hsxp : ∀ l, (sx l).Perm l) :
    ∀ (fuel : Nat) (queue : List Nat) (nodes : List NodeData) (idx : Nat)
      (fin : List NodeData) (vis : List Nat),
      computeTreeAux sc sx fuel nodes queue idx = .ok (fin, vis) →
      vis.Nodup → (∀ x ∈ queue, x < nodes.length) → IdsOk nodes →
      ∀ k (hk : k < vis.length),
        ∃ nodesK : List NodeData,
          (∀ m, treePres (getN nodes m) (getN nodesK m)) ∧
          (∀ m, treePres (getN nodesK m) (getN fin m)) ∧
          getN fin (vis.get ⟨k, hk⟩) =
            visitNode sc sx nodesK (vis.get ⟨k, hk⟩) (idx + k) := by
  intro fuel
  induction fuel with
  | zero =>
    intro queue nodes idx fin vis h hnd hq hids k hk
    cases queue with
    | nil =>
      simp only [computeTreeAux, Except.ok.injEq, Prod.mk.injEq] at h
      rw [← h.2] at hk
      simp at hk
    | cons n rest => simp [computeTreeAux] at h
  | succ f ih =>
    intro queue nodes idx fin vis h hnd hq hids k hk
    cases queue with
    | nil =>
      simp only [computeTreeAux, Except.ok.injEq, Prod.mk.injEq] at h
      rw [← h.2] at hk
      simp at hk
    | cons n rest =>
      simp only [computeTreeAux] at h
      split at h
      · exact absurd h (by simp)
      · rename_i nodes2 enq hstep
        have hp := visitStep_ok hstep
        simp only [Prod.mk.injEq] at hp
        obtain ⟨rfl, rfl⟩ := hp
        split at h
        · exact absurd h (by simp)
        · rename_i fin2 vis2 heq
          simp only [Except.ok.injEq, Prod.mk.injEq] at h
          obtain ⟨hfin, hvis⟩ := h
          subst hfin
          subst hvis
          have hn : n < nodes.length := hq n (List.mem_cons_self _ _)
          have hnd2 : vis2.Nodup := (List.nodup_cons.mp hnd).2
          have hq2 : ∀ x ∈ rest ++ visitEnq sc sx nodes n idx,
              x < (nodes.set n (visitNode sc sx nodes n idx)).length := by
            intro x hx
            rw [List.length_set]
            rcases List.mem_append.mp hx with hx | hx
            · exact hq x (List.mem_cons_of_mem _ hx)
            · unfold visitEnq at hx
              split at hx
              · simp at hx
              · have : x ∈ (getN nodes n).children := (hscp _ _).mem_iff.mp hx
                exact idsOk_all hids n x this
          have hids2 : IdsOk (nodes.set n (visitNode sc sx nodes n idx)) :=
            idsOk_visit hscp hids n idx
          cases k with
          | zero =>
            refine ⟨nodes, fun m => treePres_refl _, ?_, ?_⟩
            · intro m
              exact treePres_trans (visitNode_treePres hscp hsxp nodes n idx m)
                (computeTreeAux_pres hscp hsxp _ _ _ _ _ _ heq m)
            · have hnv : n ∉ vis2 := (List.nodup_cons.mp hnd).1
              have : getN fin2 n = getN (nodes.set n (visitNode sc sx nodes n idx)) n :=
                computeTreeAux_untouched _ _ _ _ _ _ heq n hnv
              rw [List.get]
              rw [this, getN_set]
              simp [hn]
          | succ k1 =>
            have hk1 : k1 < vis2.length := by
              simpa using hk
            obtain ⟨nodesK, hp1, hp2, hp3⟩ :=
              ih _ _ _ _ _ heq hnd2 hq2 hids2 k1 hk1
            refine ⟨nodesK, ?_, hp2, ?_⟩
            · intro m
              exact treePres_trans (visitNode_treePres hscp hsxp nodes n idx m) (hp1 m)
            · have hgc : (n :: vis2).get ⟨k1 + 1, hk⟩ = vis2.get ⟨k1, hk1⟩ := rfl
              rw [hgc, hp3]
              have : idx + (k1 + 1) = idx + 1 + k1 := by omega
              rw [this]

/-- Every child enqueued by a visited non-alias node appears later in the
visit order than the node itself. -/
theorem computeTreeAux_child_after {sc : (Nat → List Nat) → List Nat → List Nat}
    {sx : List (List Nat × List Nat) → List (List Nat × List Nat)}
    (hscp : ∀ f l, (sc f l).Perm l) :
    ∀ (fuel : Nat) (queue : List Nat) (nodes : List NodeData) (idx : Nat)
      (fin : List NodeData) (vis : List Nat),
      computeTreeAux sc sx fuel nodes queue idx = .ok (fin, vis) →
      vis.Nodup → (∀ x ∈ queue, x < nodes.length) → IdsOk nodes →
      ∀ k (hk : k < vis.length) c,
        c ∈ (getN fin (vis.get ⟨k, hk⟩)).children →
        (getN fin (vis.get ⟨k, hk⟩)).linkTo = none →
        ∃ j, ∃ hj : j < vis.length, k < j ∧ vis.get ⟨j, hj⟩ = c := by
  intro fuel
  induction fuel with
  | zero =>
    intro queue nodes idx fin vis h hnd hq hids k hk
    cases queue with
    | nil =>
      simp only [computeTreeAux, Except.ok.injEq, Prod.mk.injEq] at h
      rw [← h.2] at hk
      simp at hk
    | cons n rest => simp [computeTreeAux] at h
  | succ f ih =>
    intro queue nodes idx fin vis h hnd hq hids k hk c hc hlink
    cases queue with
    | nil =>
      simp only [computeTreeAux, Except.ok.injEq, Prod.mk.injEq] at h
      rw [← h.2] at hk
      simp at hk
    | cons n rest =>
      simp only [computeTreeAux] at h
      split at h
      · exact absurd h (by simp)
      · rename_i nodes2 enq hstep
        have hp := visitStep_ok hstep
        simp only [Prod.mk.injEq] at hp
        obtain ⟨rfl, rfl⟩ := hp
        split at h
        · exact absurd h (by simp)
        · rename_i fin2 vis2 heq
          simp only [Except.ok.injEq, Prod.mk.injEq] at h
          obtain ⟨hfin, hvis⟩ := h
          subst hfin
          subst hvis
          have hn : n < nodes.length := hq n (List.mem_cons_self _ _)
          have hnd2 : vis2.Nodup := (List.nodup_cons.mp hnd).2
          have hq2 : ∀ x ∈ rest ++ visitEnq sc sx nodes n idx,
              x < (nodes.set n (visitNode sc sx nodes n idx)).length := by
            intro x hx
            rw [List.length_set]
            rcases List.mem_append.mp hx with hx | hx
            · exact hq x (List.mem_cons_of_mem _ hx)
            · unfold visitEnq at hx
              split at hx
              · simp at hx
              · have : x ∈ (getN nodes n).children := (hscp _ _).mem_iff.mp hx
                exact idsOk_all hids n x this
          have hids2 : IdsOk (nodes.set n (visitNode sc sx nodes n idx)) :=
            idsOk_visit hscp hids n idx
          cases k with
          | zero =>
            have hnv : n ∉ vis2 := (List.nodup_cons.mp hnd).1
            have hfinN : getN fin2 n =
                getN (nodes.set n (visitNode sc sx nodes n idx)) n :=
              computeTreeAux_untouched _ _ _ _ _ _ heq n hnv
            have hget0 : (n :: vis2).get ⟨0, hk⟩ = n := rfl
            rw [hget0] at hc hlink
            rw [hfinN, getN_set] at hc hlink
            simp only [hn, and_true, if_pos rfl] at hc hlink
            have hlink2 : (getN nodes n).linkTo = none := by
              simpa [visitNode] using hlink
            have henq : visitEnq sc sx nodes n idx =
                (visitNode sc sx nodes n idx).children := by
              unfold visitEnq
              rw [hlink2]
              simp
            have hcenq : c ∈ rest ++ visitEnq sc sx nodes n idx := by
              apply List.mem_append_right
              rw [henq]
              simpa [visitNode] using hc
            have hcv : c ∈ vis2 := computeTreeAux_mem _ _ _ _ _ _ heq c hcenq
            obtain ⟨⟨j1, hj1⟩, hjc⟩ := List.mem_iff_get.mp hcv
            refine ⟨j1 + 1, by simpa using hj1, by omega, ?_⟩
            simpa using hjc
          | succ k1 =>
            have hk1 : k1 < vis2.length := by simpa using hk
            have hgc : (n :: vis2).get ⟨k1 + 1, hk⟩ = vis2.get ⟨k1, hk1⟩ := rfl
            rw [hgc] at hc hlink
            obtain ⟨j, hj, hlt, hjc⟩ := ih _ _ _ _ _ heq hnd2 hq2 hids2 k1 hk1 c hc hlink
            refine ⟨j + 1, by simpa using hj, by omega, ?_⟩
            simpa using hjc

/-- Node fields untouched by `compute_variable_data` (it writes only the
`variable_data` and `digest` slots). -/
def vdPres (a b : NodeData) : Prop :=
  b.mode = a.mode ∧ b.size = a.size ∧ b.name = a.name ∧ b.linkTo = a.linkTo ∧
  b.payload = a.payload ∧ b.digestSet = a.digestSet ∧ b.digest = a.digest ∧
  b.children = a.children ∧ b.xattrs = a.xattrs ∧ b.inodeNum = a.inodeNum ∧
  b.nlink = a.nlink

theorem vdPres_refl (a : NodeData) : vdPres a a :=
  ⟨rfl, rfl, rfl, rfl, rfl, rfl, rfl, rfl, rfl, rfl, rfl⟩

theorem vdPres_trans {a b c : NodeData} (h1 : vdPres a b) (h2 : vdPres b c) :
    vdPres a c := by
  obtain ⟨a1, a2, a3, a4, a5, a6, a7, a8, a9, a10, a11⟩ := h1
  obtain ⟨b1, b2, b3, b4, b5, b6, b7, b8, b9, b10, b11⟩ := h2
  exact ⟨b1.trans a1, b2.trans a2, b3.trans a3, b4.trans a4, b5.trans a5,
    b6.trans a6, b7.trans a7, b8.trans a8, b9.trans a9, b10.trans a10, b11.trans a11⟩

theorem vdDirStep_pres {nodes : List NodeData} {ctx : Ctx} {n : Nat}
    {p : List NodeData × Ctx} (h : vdDirStep nodes ctx n = .ok p) :
    ∀ m, vdPres (getN nodes m) (getN p.1 m) := by
  intro m
  simp only [vdDirStep] at h
  split at h
  · split at h
    · exact absurd h (by simp)
    · simp only [Except.ok.injEq] at h
      rw [← h]
      rw [getN_set]
      split
      · rename_i hcond
        obtain ⟨rfl, -⟩ := hcond
        exact ⟨rfl, rfl, rfl, rfl, rfl, rfl, rfl, rfl, rfl, rfl, rfl⟩
      · exact vdPres_refl _
  · simp only [Except.ok.injEq] at h
    rw [← h]
    exact vdPres_refl _

theorem vdPayloadStep_pres (nodes : List NodeData) (ctx : Ctx) (n m : Nat) :
    vdPres (getN nodes m) (getN (vdPayloadStep nodes ctx n).1 m) := by
  simp only [vdPayloadStep]
  split
  · rw [getN_set]
    split
    · rename_i hcond
      obtain ⟨rfl, -⟩ := hcond
      exact ⟨rfl, rfl, rfl, rfl, rfl, rfl, rfl, rfl, rfl, rfl, rfl⟩
    · exact vdPres_refl _
  · exact vdPres_refl _

theorem vdDigestStep_pres (nodes : List NodeData) (ctx : Ctx) (n m : Nat) :
    vdPres (getN nodes m) (getN (vdDigestStep nodes ctx n).1 m) := by
  simp only [vdDigestStep]
  split
  · rw [getN_set]
    split
    · rename_i hcond
      obtain ⟨rfl, -⟩ := hcond
      exact ⟨rfl, rfl, rfl, rfl, rfl, rfl, rfl, rfl, rfl, rfl, rfl⟩
    · exact vdPres_refl _
  · exact vdPres_refl _

theorem vdataNodeStep_pres {nodes : List NodeData} {ctx : Ctx} {n : Nat}
    {p : List NodeData × Ctx} (h : vdataNodeStep nodes ctx n = .ok p) :
    ∀ m, vdPres (getN nodes m) (getN p.1 m) := by
  intro m
  simp only [vdataNodeStep, bind, Except.bind] at h
  split at h
  · exact absurd h (by simp)
  · rename_i p1 hdir
    simp only [pure, Except.pure, Except.ok.injEq] at h
    rw [← h]
    refine vdPres_trans (vdDirStep_pres hdir m) ?_
    exact vdPres_trans (vdPayloadStep_pres p1.1 p1.2 n m)
      (vdDigestStep_pres _ _ n m)

theorem computeVariableData_pres :
    ∀ (vis : List Nat) (nodes : List NodeData) (ctx : Ctx)
      (fin : List NodeData) (cfin : Ctx),
      computeVariableData nodes ctx vis = .ok (fin, cfin) →
      ∀ m, vdPres (getN nodes m) (getN fin m) := by
  intro vis
  induction vis with
  | nil =>
    intro nodes ctx fin cfin h m
    simp only [computeVariableData, Except.ok.injEq, Prod.mk.injEq] at h
    rw [← h.1]
    exact vdPres_refl _
  | cons n rest ih =>
    intro nodes ctx fin cfin h m
    simp only [computeVariableData, bind, Except.bind] at h
    split at h
    · exact absurd h (by simp)
    · rename_i p hstep
      exact vdPres_trans (vdataNodeStep_pres hstep m) (ih _ _ _ _ h m)

/-- Node fields untouched by `compute_xattrs` (it writes only the inode's
`xattrs` slot). -/
def xaPres (a b : NodeData) : Prop :=
  vdPres a b ∧ b.vdOff = a.vdOff ∧ b.vdLen = a.vdLen ∧
  b.dgOff = a.dgOff ∧ b.dgLen = a.dgLen

theorem xaPres_refl (a : NodeData) : xaPres a a :=
  ⟨vdPres_refl a, rfl, rfl, rfl, rfl⟩

theorem xaPres_trans {a b c : NodeData} (h1 : xaPres a b) (h2 : xaPres b c) :
    xaPres a c :=
  ⟨vdPres_trans h1.1 h2.1, h2.2.1.trans h1.2.1, h2.2.2.1.trans h1.2.2.1,
   h2.2.2.2.1.trans h1.2.2.2.1, h2.2.2.2.2.trans h1.2.2.2.2⟩

theorem xattrNodeStep_pres (nodes : List NodeData) (ctx : Ctx) (n m : Nat) :
    xaPres (getN nodes m) (getN (xattrNodeStep nodes ctx n).1 m) := by
  simp only [xattrNodeStep]
  split
  · exact xaPres_refl _
  · rw [getN_set]
    split
    · rename_i hcond
      obtain ⟨rfl, -⟩ := hcond
      exact ⟨⟨rfl, rfl, rfl, rfl, rfl, rfl, rfl, rfl, rfl, rfl, rfl⟩, rfl, rfl, rfl, rfl⟩
    · exact xaPres_refl _

theorem computeXattrs_pres :
    ∀ (vis : List Nat) (nodes : List NodeData) (ctx : Ctx) (m : Nat),
      xaPres (getN nodes m) (getN (computeXattrs nodes ctx vis).1 m) := by
  intro vis
  induction vis with
  | nil => intro nodes ctx m; exact xaPres_refl _
  | cons n rest ih =>
    intro nodes ctx m
    simp only [computeXattrs]
    exact xaPres_trans (xattrNodeStep_pres nodes ctx n m) (ih _ _ m)

theorem writeOk_elim {fs : FS} (h : writeOk fs = true) :
    lcfs_write_to fs = .ok (writeRes fs) := by
  unfold writeOk at h
  unfold writeRes
  cases heq : lcfs_write_to fs with
  | ok r => rfl
  | error e => rw [heq] at h; simp at h

/-- Unfolding of a successful `lcfs_write_to` run into its pipeline stages. -/
theorem lcfs_write_to_elim {fs : FS} {r : WriteResult}
    (h : lcfs_write_to fs = .ok r) :
    ∃ nodes1 vis nodes2 ctx1,
      compute_tree chSortCanon xaSortCanon fs = .ok (nodes1, vis) ∧
      computeVariableData nodes1 { vdata := [], index := [] } vis = .ok (nodes2, ctx1) ∧
      r.nodes = (computeXattrs nodes2 ctx1 vis).1 ∧
      r.ctx = (computeXattrs nodes2 ctx1 vis).2 ∧
      r.visited = vis ∧
      r.dataOffset = align4 (superblockSize + inodeSize * vis.length) ∧
      r.out = (if r.ctx.vdata.length != 0 then
          (superblockBytes r.dataOffset ++ inodeTableBytes r.nodes vis) ++
            List.replicate (r.dataOffset -
              (superblockBytes r.dataOffset ++ inodeTableBytes r.nodes vis).length) 0 ++
            r.ctx.vdata
        else superblockBytes r.dataOffset ++ inodeTableBytes r.nodes vis) := by
  unfold lcfs_write_to lcfs_write_to_with at h
  simp only [bind, Except.bind] at h
  split at h
  · exact absurd h (by simp)
  · rename_i p1 htree
    obtain ⟨nodes1, vis⟩ := p1
    split at h
    · exact absurd h (by simp)
    · rename_i p2 hvd
      obtain ⟨nodes2, ctx1⟩ := p2
      simp only [pure, Except.pure, Except.ok.injEq] at h
      refine ⟨nodes1, vis, nodes2, ctx1, htree, hvd, ?_, ?_, ?_, ?_, ?_⟩ <;>
        rw [← h]

theorem not_dir_of_reg {m : Nat} (h : isRegMode m = true) : isDirMode m = false := by
  simp only [isRegMode, beq_iff_eq] at h
  simp [isDirMode, h]

theorem not_lnk_of_reg {m : Nat} (h : isRegMode m = true) : isLnkMode m = false := by
  simp only [isRegMode, beq_iff_eq] at h
  simp [isLnkMode, h]

theorem vdDirStep_reg_unchanged {nodes : List NodeData} {ctx : Ctx} {n : Nat}
    {p : List NodeData × Ctx} (h : vdDirStep nodes ctx n = .ok p) (m : Nat)
    (hreg : isRegMode (getN nodes m).mode = true) :
    getN p.1 m = getN nodes m := by
  simp only [vdDirStep] at h
  split at h
  · split at h
    · exact absurd h (by simp)
    · rename_i hcond hlen
      simp only [Except.ok.injEq] at h
      rw [← h, getN_set]
      split
      · rename_i hmn
        obtain ⟨rfl, -⟩ := hmn
        rw [not_dir_of_reg hreg] at hcond
        simp at hcond
      · rfl
  · simp only [Except.ok.injEq] at h
    rw [← h]

theorem vdPayloadStep_empty_unchanged (nodes : List NodeData) (ctx : Ctx) (n m : Nat)
    (hreg : isRegMode (getN nodes m).mode = true)
    (hsz : (getN nodes m).size = 0) :
    getN (vdPayloadStep nodes ctx n).1 m = getN nodes m := by
  simp only [vdPayloadStep]
  split
  · rename_i hcond
    rw [getN_set]
    split
    · rename_i hmn
      obtain ⟨rfl, -⟩ := hmn
      rw [hreg, hsz, not_lnk_of_reg hreg] at hcond
      simp at hcond
    · rfl
  · rfl

theorem vdDigestStep_vd_unchanged (nodes : List NodeData) (ctx : Ctx) (n m : Nat) :
    (getN (vdDigestStep nodes ctx n).1 m).vdOff = (getN nodes m).vdOff ∧
    (getN (vdDigestStep nodes ctx n).1 m).vdLen = (getN nodes m).vdLen := by
  simp only [vdDigestStep]
  split
  · rw [getN_set]
    split
    · rename_i hmn
      obtain ⟨rfl, -⟩ := hmn
      exact ⟨rfl, rfl⟩
    · exact ⟨rfl, rfl⟩
  · exact ⟨rfl, rfl⟩

theorem computeVariableData_empty_reg :
    ∀ (vis : List Nat) (nodes : List NodeData) (ctx : Ctx)
      (fin : List NodeData) (cfin : Ctx),
      computeVariableData nodes ctx vis = .ok (fin, cfin) →
      ∀ m, isRegMode (getN nodes m).mode = true → (getN nodes m).size = 0 →
        (getN nodes m).vdOff = 0 → (getN nodes m).vdLen = 0 →
        (getN fin m).vdOff = 0 ∧ (getN fin m).vdLen = 0 := by
  intro vis
  induction vis with
  | nil =>
    intro nodes ctx fin cfin h m hreg hsz hoff hlen
    simp only [computeVariableData, Except.ok.injEq, Prod.mk.injEq] at h
    rw [← h.1]
    exact ⟨hoff, hlen⟩
  | cons n rest ih =>
    intro nodes ctx fin cfin h m hreg hsz hoff hlen
    simp only [computeVariableData, bind, Except.bind] at h
    split at h
    · exact absurd h (by simp)
    · rename_i p hstep
      simp only [vdataNodeStep, bind, Except.bind] at hstep
      split at hstep
      · exact absurd hstep (by simp)
      · rename_i p1 hdir
        simp only [pure, Except.pure, Except.ok.injEq] at hstep
        have h1 : getN p1.1 m = getN nodes m := vdDirStep_reg_unchanged hdir m hreg
        have h2 : getN (vdPayloadStep p1.1 p1.2 n).1 m = getN p1.1 m :=
          vdPayloadStep_empty_unchanged p1.1 p1.2 n m (h1 ▸ hreg) (h1 ▸ hsz)
        have h3 := vdDigestStep_vd_unchanged (vdPayloadStep p1.1 p1.2 n).1
          (vdPayloadStep p1.1 p1.2 n).2 n m
        have hpres := vdDigestStep_pres (vdPayloadStep p1.1 p1.2 n).1
          (vdPayloadStep p1.1 p1.2 n).2 n m
        rw [← hstep] at h
        refine ih _ _ _ _ h m ?_ ?_ ?_ ?_
        · rw [hpres.1, h2, h1]; exact hreg
        · rw [hpres.2.1, h2, h1]; exact hsz
        · rw [h3.1, h2, h1]; exact hoff
        · rw [h3.2, h2, h1]; exact hlen

theorem chSortCanon_perm : ∀ (f : Nat → List Nat) (l : List Nat), (chSortCanon f l).Perm l :=
  fun _ l => List.perm_insertionSort _ l

theorem xaSortCanon_perm : ∀ l : List (List Nat × List Nat), (xaSortCanon l).Perm l :=
  fun l => List.perm_insertionSort _ l

theorem markRoot_treePres (fs : FS) (m : Nat) :
    treePres (getN fs.nodes m)
      (getN (fs.nodes.set fs.root { getN fs.nodes fs.root with inTree := true }) m) := by
  rw [getN_set]
  split
  · rename_i h
    obtain ⟨rfl, -⟩ := h
    exact ⟨rfl, rfl, rfl, rfl, rfl, rfl, rfl, rfl, rfl, List.Perm.refl _, List.Perm.refl _⟩
  · exact treePres_refl _

theorem compute_tree_pres {fs : FS} {nodes1 : List NodeData} {vis : List Nat}
    (h : compute_tree chSortCanon xaSortCanon fs = .ok (nodes1, vis)) (m : Nat) :
    treePres (getN fs.nodes m) (getN nodes1 m) := by
  unfold compute_tree at h
  exact treePres_trans (markRoot_treePres fs m)
    (computeTreeAux_pres chSortCanon_perm xaSortCanon_perm _ _ _ _ _ _ h m)

/-- C3: a regular file of size 0 keeps `variable_data = (0, 0)` in the
emitted inode, even when a payload string is set on the node; the node starts
with the zeroed `variable_data` slot that `lcfs_node_new` gives every node. -/
theorem empty_regular_file_variable_data (fs : FS) (hok : writeOk fs = true) (n : Nat)
    (hreg : isRegMode (getN fs.nodes n).mode = true)
    (hsz : (getN fs.nodes n).size = 0)
    (hoff : (getN fs.nodes n).vdOff = 0) (hlen : (getN fs.nodes n).vdLen = 0) :
    (getN (writeRes fs).nodes n).vdOff = 0 ∧ (getN (writeRes fs).nodes n).vdLen = 0 := by
  obtain ⟨nodes1, vis, nodes2, ctx1, htree, hvd, hnodes, -, -, -, -⟩ :=
    lcfs_write_to_elim (writeOk_elim hok)
  obtain ⟨hm, hs, -, -, -, -, -, ho, hl, -, -⟩ := compute_tree_pres htree n
  have h2 := computeVariableData_empty_reg vis nodes1 _ nodes2 ctx1 hvd n
    (by rw [hm]; exact hreg) (by rw [hs]; exact hsz)
    (by rw [ho]; exact hoff) (by rw [hl]; exact hlen)
  have h3 := computeXattrs_pres vis nodes2 ctx1 n
  rw [hnodes]
  exact ⟨h3.2.1.trans h2.1, h3.2.2.1.trans h2.2⟩

/-- Witness for C3: the empty file of `fsE` has a payload set, yet its
emitted `variable_data` slot stays (0, 0). -/
theorem empty_regular_file_variable_data_witness :
    (getN (writeRes fsE).nodes 1).vdOff = 0 ∧ (getN (writeRes fsE).nodes 1).vdLen = 0 :=
  empty_regular_file_variable_data fsE (by decide) 1 (by decide) (by decide)
    (by decide) (by decide)

theorem not_dir_of_lnk {m : Nat} (h : isLnkMode m = true) : isDirMode m = false := by
  simp only [isLnkMode, beq_iff_eq] at h
  simp [isDirMode, h]

theorem align4_mod (x : Nat) : align4 x % 4 = 0 := Nat.mul_mod_left _ 4

/-- Every directory's `variable_data` offset is 4-aligned in the store. -/
def DirAligned (nodes : List NodeData) : Prop :=
  ∀ m, isDirMode (getN nodes m).mode = true → (getN nodes m).vdOff % 4 = 0

theorem dirAligned_of_eqFields {a b : List NodeData}
    (hmode : ∀ m, (getN b m).mode = (getN a m).mode)
    (hoff : ∀ m, (getN b m).vdOff = (getN a m).vdOff)
    (h : DirAligned a) : DirAligned b := by
  intro m hm
  rw [hoff m]
  exact h m (by rw [← hmode m]; exact hm)

theorem vdDirStep_dirAligned {nodes : List NodeData} {ctx : Ctx} {n : Nat}
    {p : List NodeData × Ctx} (h : vdDirStep nodes ctx n = .ok p)
    (hd : DirAligned nodes) : DirAligned p.1 := by
  intro m hm
  have hmode := (vdDirStep_pres h m).1
  rw [hmode] at hm
  simp only [vdDirStep] at h
  split at h
  · split at h
    · exact absurd h (by simp)
    · simp only [Except.ok.injEq] at h
      rw [← h, getN_set]
      split
      · rename_i hmn
        obtain ⟨rfl, -⟩ := hmn
        show (lcfs_append_vdata ctx
          (direntBlockBytes nodes (getN nodes m).children) false true).2.off % 4 = 0
        rw [(append_align_fresh ctx _ false (fun hf => Bool.noConfusion hf)).1]
        exact align4_mod _
      · exact hd m hm
  · simp only [Except.ok.injEq] at h
    rw [← h]
    exact hd m hm

theorem vdPayloadStep_dir_vd (nodes : List NodeData) (ctx : Ctx) (n m : Nat)
    (hm : isDirMode (getN nodes m).mode = true) :
    (getN (vdPayloadStep nodes ctx n).1 m).vdOff = (getN nodes m).vdOff := by
  simp only [vdPayloadStep]
  split
  · rename_i hcond
    rw [getN_set]
    split
    · rename_i hmn
      obtain ⟨rfl, -⟩ := hmn
      exfalso
      rcases Bool.and_eq_true_iff.mp hcond with ⟨h1, -⟩
      rcases Bool.or_eq_true_iff.mp h1 with h2 | h2
      · rcases Bool.and_eq_true_iff.mp h2 with ⟨h3, -⟩
        rw [not_dir_of_reg h3] at hm
        exact Bool.noConfusion hm
      · rw [not_dir_of_lnk h2] at hm
        exact Bool.noConfusion hm
    · rfl
  · rfl

theorem vdPayloadStep_dirAligned (nodes : List NodeData) (ctx : Ctx) (n : Nat)
    (hd : DirAligned nodes) : DirAligned (vdPayloadStep nodes ctx n).1 := by
  intro m hm
  have hmode := (vdPayloadStep_pres nodes ctx n m).1
  rw [hmode] at hm
  rw [vdPayloadStep_dir_vd nodes ctx n m hm]
  exact hd m hm

theorem vdDigestStep_dirAligned (nodes : List NodeData) (ctx : Ctx) (n : Nat)
    (hd : DirAligned nodes) : DirAligned (vdDigestStep nodes ctx n).1 := by
  intro m hm
  have hmode := (vdDigestStep_pres nodes ctx n m).1
  rw [hmode] at hm
  rw [(vdDigestStep_vd_unchanged nodes ctx n m).1]
  exact hd m hm

theorem computeVariableData_dirAligned :
    ∀ (vis : List Nat) (nodes : List NodeData) (ctx : Ctx)
      (fin : List NodeData) (cfin : Ctx),
      computeVariableData nodes ctx vis = .ok (fin, cfin) →
      DirAligned nodes → DirAligned fin := by
  intro vis
  induction vis with
  | nil =>
    intro nodes ctx fin cfin h hd
    simp only [computeVariableData, Except.ok.injEq, Prod.mk.injEq] at h
    rw [← h.1]
    exact hd
  | cons n rest ih =>
    intro nodes ctx fin cfin h hd
    simp only [computeVariableData, bind, Except.bind] at h
    split at h
    · exact absurd h (by simp)
    · rename_i p hstep
      simp only [vdataNodeStep, bind, Except.bind] at hstep
      split at hstep
      · exact absurd hstep (by simp)
      · rename_i p1 hdir
        simp only [pure, Except.pure, Except.ok.injEq] at hstep
        have hd1 : DirAligned p1.1 := vdDirStep_dirAligned hdir hd
        have hd2 := vdPayloadStep_dirAligned p1.1 p1.2 n hd1
        have hd3 := vdDigestStep_dirAligned (vdPayloadStep p1.1 p1.2 n).1
          (vdPayloadStep p1.1 p1.2 n).2 n hd2
        rw [← hstep] at h
        exact ih _ _ _ _ h hd3

theorem computeXattrs_dirAligned (vis : List Nat) (nodes : List NodeData)
    (ctx : Ctx) (hd : DirAligned nodes) :
    DirAligned (computeXattrs nodes ctx vis).1 :=
  dirAligned_of_eqFields
    (fun m => (computeXattrs_pres vis nodes ctx m).1.1)
    (fun m => (computeXattrs_pres vis nodes ctx m).2.1) hd

/-- C5 fails as stated: in `fsC5` the root's xattr block is requested with
dedup, and the dedup index returns the byte range of the child's digest, which
was appended earlier without alignment at offset 19.  The root inode's
`xattrs` slot therefore points at offset 19, not a multiple of 4, and those
arena bytes are exactly the serialized xattr block. -/
theorem xattr_block_offset_unaligned :
    writeOk fsC5 = true ∧
    (getN (writeRes fsC5).nodes 0).xattrs ≠ [] ∧
    (getN (writeRes fsC5).nodes 0).xaOff = 19 ∧
    (getN (writeRes fsC5).nodes 0).xaLen = 32 ∧
    extractRange (writeRes fsC5).ctx.vdata 19 32 =
      xattrBlockBytes (getN (writeRes fsC5).nodes 0).xattrs ∧
    19 % 4 ≠ 0 := by
  refine ⟨by decide, by decide, by decide, by decide, by decide, by decide⟩

/-- C5 amended: every directory block's starting offset in the arena is a
multiple of 4, and an xattr block's starting offset is a multiple of 4
whenever it is freshly appended; when the dedup lookup hits, the earlier
range is returned unchanged and its offset need not be 4-aligned (see the
counterexample). -/
theorem block_alignment_amended (fs : FS) (hok : writeOk fs = true)
    (hz : ∀ m, m < fs.nodes.length → (getN fs.nodes m).vdOff = 0) :
    (∀ n, isDirMode (getN (writeRes fs).nodes n).mode = true →
      (getN (writeRes fs).nodes n).vdOff % 4 = 0) ∧
    (∀ (ctx : Ctx) (data : List Nat),
      dedupLookup ctx.vdata ctx.index data = none →
      (lcfs_append_vdata ctx data true true).2.off % 4 = 0) := by
  constructor
  · obtain ⟨nodes1, vis, nodes2, ctx1, htree, hvd, hnodes, -, -, -, -⟩ :=
      lcfs_write_to_elim (writeOk_elim hok)
    have h0 : DirAligned fs.nodes := by
      intro m hm
      by_cases hlt : m < fs.nodes.length
      · rw [hz m hlt]
      · rw [getN_out (Nat.le_of_not_lt hlt)]
        rfl
    have h1 : DirAligned nodes1 :=
      dirAligned_of_eqFields (fun m => (compute_tree_pres htree m).1)
        (fun m => (compute_tree_pres htree m).2.2.2.2.2.2.2.1) h0
    have h2 : DirAligned nodes2 :=
      computeVariableData_dirAligned vis nodes1 _ nodes2 ctx1 hvd h1
    intro n hn
    rw [hnodes] at hn ⊢
    exact computeXattrs_dirAligned vis nodes2 ctx1 h2 n hn
  · intro ctx data hmiss
    rw [(append_align_fresh ctx data true (fun _ => hmiss)).1]
    exact align4_mod _

/-- Witness for the amended C5 at concrete inputs: the root directory block
of `fsA` sits at a 4-aligned offset, and a concrete fresh aligned dedup
append lands on a 4-aligned offset. -/
theorem block_alignment_amended_witness :
    (getN (writeRes fsA).nodes 0).vdOff % 4 = 0 ∧
    (lcfs_append_vdata { vdata := [1, 2, 3], index := [] } [9] true true).2.off % 4 = 0 :=
  ⟨(block_alignment_amended fsA (by decide) (by decide)).1 0 (by decide),
   (block_alignment_amended fsA (by decide) (by decide)).2
     { vdata := [1, 2, 3], index := [] } [9] (by decide)⟩

theorem inodeTableBytes_length (nodes : List NodeData) :
    ∀ vis : List Nat, (inodeTableBytes nodes vis).length = 88 * vis.length := by
  intro vis
  induction vis with
  | nil => rfl
  | cons n rest ih =>
    have hrec : (inodeRecordBytes (getN nodes n)).length = 88 := by
      simp [inodeRecordBytes, le32, le64]
    simp only [inodeTableBytes, List.map_cons, List.flatten_cons, List.length_append,
      hrec]
    simp only [inodeTableBytes] at ih
    rw [ih, List.length_cons]
    ring

theorem align4_of_mod {x : Nat} (h : x % 4 = 0) : align4 x = x := by
  unfold align4
  omega

/-- C9: the bytes handed to the sink total exactly
`data_offset + vdata_len`, with `data_offset = align4(superblock size +
inode table size)` — also when the arena is empty, because the superblock
and the inode record are both multiples of 4 bytes long. -/
theorem total_bytes_written (fs : FS) (hok : writeOk fs = true) :
    (writeRes fs).out.length =
      (writeRes fs).dataOffset + (writeRes fs).ctx.vdata.length ∧
    (writeRes fs).dataOffset =
      align4 (superblockSize + inodeSize * (writeRes fs).visited.length) := by
  obtain ⟨nodes1, vis, nodes2, ctx1, htree, hvd, hnodes, hctx, hvis, hdata, hout⟩ :=
    lcfs_write_to_elim (writeOk_elim hok)
  have hmod : (superblockSize + inodeSize * vis.length) % 4 = 0 := by
    simp only [superblockSize, inodeSize]
    omega
  have hdo : (writeRes fs).dataOffset = superblockSize + inodeSize * vis.length := by
    rw [hdata]
    exact align4_of_mod hmod
  have hsb : (superblockBytes (writeRes fs).dataOffset).length = 16 := by
    simp [superblockBytes, le32, le64]
  have hheader : (superblockBytes (writeRes fs).dataOffset).length +
      (inodeTableBytes (writeRes fs).nodes vis).length =
      (writeRes fs).dataOffset := by
    rw [hsb, inodeTableBytes_length, hdo]
    simp [superblockSize, inodeSize]
  refine ⟨?_, by rw [hdata, hvis]⟩
  rw [hout]
  split
  · simp only [List.length_append, List.length_replicate]
    omega
  · rename_i hne
    simp only [bne_iff_ne, ne_eq, not_not] at hne
    rw [List.length_append, hne]
    omega

/-- Witness for C9 at the concrete tree `fsA`. -/
theorem total_bytes_written_witness :
    (writeRes fsA).out.length =
      (writeRes fsA).dataOffset + (writeRes fsA).ctx.vdata.length ∧
    (writeRes fsA).dataOffset =
      align4 (superblockSize + inodeSize * (writeRes fsA).visited.length) :=
  total_bytes_written fsA (by decide)

/-- Witness for C7 at a concrete unaligned arena. -/
theorem append_align_fresh_witness :
    (lcfs_append_vdata { vdata := [1, 2, 3], index := [] } [9] true true).2.off = 4 ∧
    (lcfs_append_vdata { vdata := [1, 2, 3], index := [] } [9] true true).2.len = 1 ∧
    (lcfs_append_vdata { vdata := [1, 2, 3], index := [] } [9] true true).1.vdata =
      [1, 2, 3] ++ List.replicate 1 0 ++ [9] ∧
    extractRange
      (lcfs_append_vdata { vdata := [1, 2, 3], index := [] } [9] true true).1.vdata
      (lcfs_append_vdata { vdata := [1, 2, 3], index := [] } [9] true true).2.off 1 =
      [9] :=
  append_align_fresh { vdata := [1, 2, 3], index := [] } [9] true (fun _ => rfl)

theorem treePres_mode {a b : NodeData} (h : treePres a b) : b.mode = a.mode := h.1

theorem treePres_linkTo {a b : NodeData} (h : treePres a b) : b.linkTo = a.linkTo :=
  h.2.2.2.1

theorem treePres_childrenPerm {a b : NodeData} (h : treePres a b) :
    b.children.Perm a.children := h.2.2.2.2.2.2.2.2.2.1

theorem vdPres_mode {a b : NodeData} (h : vdPres a b) : b.mode = a.mode := h.1

theorem vdPres_children {a b : NodeData} (h : vdPres a b) : b.children = a.children :=
  h.2.2.2.2.2.2.2.1

theorem vdPres_linkTo {a b : NodeData} (h : vdPres a b) : b.linkTo = a.linkTo :=
  h.2.2.2.1

theorem vdPres_nlink {a b : NodeData} (h : vdPres a b) : b.nlink = a.nlink :=
  h.2.2.2.2.2.2.2.2.2.2

theorem vdPres_inodeNum {a b : NodeData} (h : vdPres a b) : b.inodeNum = a.inodeNum :=
  h.2.2.2.2.2.2.2.2.2.1

theorem vdPres_xattrs {a b : NodeData} (h : vdPres a b) : b.xattrs = a.xattrs :=
  h.2.2.2.2.2.2.2.2.1

theorem vdPres_name {a b : NodeData} (h : vdPres a b) : b.name = a.name := h.2.2.1

/-- Across `compute_variable_data` and `compute_xattrs`, every node keeps all
fields other than the computed (offset, length) slots. -/
theorem writePasses_pres {vis : List Nat} {nodes1 nodes2 : List NodeData}
    {ctx1 : Ctx}
    (hvd : computeVariableData nodes1 { vdata := [], index := [] } vis = .ok (nodes2, ctx1))
    (m : Nat) :
    vdPres (getN nodes1 m) (getN (computeXattrs nodes2 ctx1 vis).1 m) :=
  vdPres_trans (computeVariableData_pres vis nodes1 _ nodes2 ctx1 hvd m)
    (computeXattrs_pres vis nodes2 ctx1 m).1

/-- Marking the root keeps all child indices in range. -/
theorem idsOk_mark (fs : FS) (h : IdsOk fs.nodes) :
    IdsOk (fs.nodes.set fs.root { getN fs.nodes fs.root with inTree := true }) := by
  intro m hm c hc
  rw [List.length_set] at hm ⊢
  rw [getN_set] at hc
  split at hc
  · rename_i hcond
    obtain ⟨rfl, -⟩ := hcond
    exact idsOk_all h fs.root c hc
  · exact idsOk_all h m c hc

/-- C4: after a successful run, every visited directory's emitted nlink is
2 plus the number of its direct children whose own mode is directory-typed;
a child's `link_to` is not followed. -/
theorem directory_nlink (fs : FS) (hok : writeOk fs = true)
    (hnd : (writeRes fs).visited.Nodup)
    (hroot : fs.root < fs.nodes.length) (hids : IdsOk fs.nodes)
    (n : Nat) (hn : n ∈ (writeRes fs).visited)
    (hdir : isDirMode (getN (writeRes fs).nodes n).mode = true) :
    (getN (writeRes fs).nodes n).nlink =
      2 + (getN (writeRes fs).nodes n).children.countP
            (fun c => isDirMode (getN (writeRes fs).nodes c).mode) := by
  obtain ⟨nodes1, vis, nodes2, ctx1, htree, hvd, hnodes, -, hvis, -, -⟩ :=
    lcfs_write_to_elim (writeOk_elim hok)
  rw [hvis] at hnd hn
  have hpresW : ∀ m, vdPres (getN nodes1 m) (getN (writeRes fs).nodes m) := by
    intro m
    rw [hnodes]
    exact writePasses_pres hvd m
  unfold compute_tree at htree
  obtain ⟨⟨k, hk⟩, hkn⟩ := List.mem_iff_get.mp hn
  have hq0 : ∀ x ∈ [fs.root],
      x < (fs.nodes.set fs.root { getN fs.nodes fs.root with inTree := true }).length := by
    intro x hx
    rw [List.length_set]
    simp only [List.mem_singleton] at hx
    rw [hx]
    exact hroot
  obtain ⟨nodesK, hp1, hp2, hvn⟩ :=
    computeTreeAux_visited chSortCanon_perm xaSortCanon_perm _ _ _ _ _ _
      htree hnd hq0 (idsOk_mark fs hids) k hk
  rw [hkn] at hvn
  have hmodeK : (getN nodes1 n).mode = (getN nodesK n).mode := treePres_mode (hp2 n)
  have hmodeAll : ∀ m, (getN (writeRes fs).nodes m).mode = (getN nodesK m).mode :=
    fun m => (vdPres_mode (hpresW m)).trans (treePres_mode (hp2 m))
  have hdirK : isDirMode (getN nodesK n).mode = true := by
    rw [← hmodeAll n]
    exact hdir
  have hnl : (getN (writeRes fs).nodes n).nlink = (getN nodes1 n).nlink :=
    vdPres_nlink (hpresW n)
  have hch : (getN (writeRes fs).nodes n).children = (getN nodes1 n).children :=
    vdPres_children (hpresW n)
  rw [hnl, hch, hvn]
  show (if isDirMode (getN nodesK n).mode = true then
      2 + (getN nodesK n).children.countP (fun c => isDirMode (getN nodesK c).mode)
    else (getN nodesK n).nlink) =
    2 + (chSortCanon (fun c => (getN nodesK c).name) (getN nodesK n).children).countP
          (fun c => isDirMode (getN (writeRes fs).nodes c).mode)
  rw [if_pos hdirK]
  have hperm : (chSortCanon (fun c => (getN nodesK c).name)
      (getN nodesK n).children).Perm (getN nodesK n).children :=
    chSortCanon_perm _ _
  rw [hperm.countP_eq]
  have : (getN nodesK n).children.countP
      (fun c => isDirMode (getN (writeRes fs).nodes c).mode) =
      (getN nodesK n).children.countP (fun c => isDirMode (getN nodesK c).mode) := by
    refine List.countP_congr ?_
    intro c hc
    rw [hmodeAll c]
  rw [this]

/-- Witness for C4: the root of `fsA` is a directory with no directory
children and gets nlink 2. -/
theorem directory_nlink_witness :
    (getN (writeRes fsA).nodes 0).nlink =
      2 + (getN (writeRes fsA).nodes 0).children.countP
            (fun c => isDirMode (getN (writeRes fsA).nodes c).mode) :=
  directory_nlink fsA (by decide) (by decide) (by decide) (by decide) 0
    (by decide) (by decide)

/-- Descendant relation along child edges; the children of a hardlink alias
are not walked, matching the queue push of `compute_tree`. -/
inductive Desc (nodes : List NodeData) : Nat → Nat → Prop
  | child {n c : Nat} : c ∈ (getN nodes n).children →
      (getN nodes n).linkTo = none → Desc nodes n c
  | step {n m c : Nat} : Desc nodes n m → Desc nodes m c → Desc nodes n c

theorem computeTreeAux_cons_head {sc : (Nat → List Nat) → List Nat → List Nat}
    {sx : List (List Nat × List Nat) → List (List Nat × List Nat)}
    {fuel : Nat} {nodes : List NodeData} {n : Nat} {rest : List Nat} {idx : Nat}
    {fin : List NodeData} {vis : List Nat}
    (h : computeTreeAux sc sx fuel nodes (n :: rest) idx = .ok (fin, vis)) :
    ∃ t, vis = n :: t := by
  cases fuel with
  | zero => simp [computeTreeAux] at h
  | succ f =>
    simp only [computeTreeAux] at h
    split at h
    · exact absurd h (by simp)
    · split at h
      · exact absurd h (by simp)
      · rename_i vis2 heq
        simp only [Except.ok.injEq, Prod.mk.injEq] at h
        exact ⟨_, h.2.symm⟩

/-- C6: after a successful run, the root is visited first and has inode
index 0, the index of the k-th visited node is exactly k (so the indices are
the dense range over the visit count), and every visited node's index is
strictly below the index of each of its descendants. -/
theorem inode_numbering (fs : FS) (hok : writeOk fs = true)
    (hnd : (writeRes fs).visited.Nodup)
    (hroot : fs.root < fs.nodes.length) (hids : IdsOk fs.nodes) :
    (∃ t, (writeRes fs).visited = fs.root :: t) ∧
    (getN (writeRes fs).nodes fs.root).inodeNum = 0 ∧
    (∀ k, ∀ hk : k < (writeRes fs).visited.length,
      (getN (writeRes fs).nodes ((writeRes fs).visited.get ⟨k, hk⟩)).inodeNum = k) ∧
    (∀ n c, Desc (writeRes fs).nodes n c → n ∈ (writeRes fs).visited →
      c ∈ (writeRes fs).visited ∧
      (getN (writeRes fs).nodes n).inodeNum <
        (getN (writeRes fs).nodes c).inodeNum) := by
  obtain ⟨nodes1, vis, nodes2, ctx1, htree, hvd, hnodes, -, hvis, -, -⟩ :=
    lcfs_write_to_elim (writeOk_elim hok)
  have hpresW : ∀ m, vdPres (getN nodes1 m) (getN (writeRes fs).nodes m) := by
    intro m
    rw [hnodes]
    exact writePasses_pres hvd m
  unfold compute_tree at htree
  have hq0 : ∀ x ∈ [fs.root],
      x < (fs.nodes.set fs.root { getN fs.nodes fs.root with inTree := true }).length := by
    intro x hx
    rw [List.length_set]
    simp only [List.mem_singleton] at hx
    rw [hx]
    exact hroot
  have hids0 := idsOk_mark fs hids
  rw [hvis] at hnd ⊢
  have hidx : ∀ k, ∀ hk : k < vis.length,
      (getN (writeRes fs).nodes (vis.get ⟨k, hk⟩)).inodeNum = k := by
    intro k hk
    obtain ⟨nodesK, -, -, hvn⟩ :=
      computeTreeAux_visited chSortCanon_perm xaSortCanon_perm _ _ _ _ _ _
        htree hnd hq0 hids0 k hk
    rw [vdPres_inodeNum (hpresW _), hvn]
    exact Nat.zero_add k
  obtain ⟨t, rfl⟩ := computeTreeAux_cons_head htree
  have hdesc : ∀ n c, Desc (writeRes fs).nodes n c → n ∈ fs.root :: t →
      c ∈ fs.root :: t ∧
      (getN (writeRes fs).nodes n).inodeNum <
        (getN (writeRes fs).nodes c).inodeNum := by
    intro n c hdc
    induction hdc with
    | child hc hl =>
      rename_i n1 c1
      intro hn
      obtain ⟨⟨k, hk⟩, hkn⟩ := List.mem_iff_get.mp hn
      rw [vdPres_children (hpresW n1)] at hc
      rw [vdPres_linkTo (hpresW n1)] at hl
      rw [← hkn] at hc hl
      obtain ⟨j, hj, hlt, hjc⟩ :=
        computeTreeAux_child_after chSortCanon_perm _ _ _ _ _ _
          htree hnd hq0 hids0 k hk c1 hc hl
      refine ⟨hjc ▸ List.get_mem _ _ hj, ?_⟩
      rw [← hkn, ← hjc, hidx k hk, hidx j hj]
      exact hlt
    | step h1 h2 ih1 ih2 =>
      intro hn
      obtain ⟨hm, hlt1⟩ := ih1 hn
      obtain ⟨hc2, hlt2⟩ := ih2 hm
      exact ⟨hc2, hlt1.trans hlt2⟩
  refine ⟨⟨t, rfl⟩, ?_, hidx, hdesc⟩
  have h0 : (0 : Nat) < (fs.root :: t).length := by simp
  have := hidx 0 h0
  simpa using this

/-- Witness for C6 at the hardlink tree `fsHL`: the root is visited first
with index 0, and the file node (a root child) is visited later with a
strictly larger index. -/
theorem inode_numbering_witness :
    (getN (writeRes fsHL).nodes fsHL.root).inodeNum = 0 ∧
    2 ∈ (writeRes fsHL).visited ∧
    (getN (writeRes fsHL).nodes 0).inodeNum < (getN (writeRes fsHL).nodes 2).inodeNum :=
  ⟨(inode_numbering fsHL (by decide) (by decide) (by decide) (by decide)).2.1,
   ((inode_numbering fsHL (by decide) (by decide) (by decide) (by decide)).2.2.2 0 2
     (Desc.child (by decide) (by decide)) (by decide)).1,
   ((inode_numbering fsHL (by decide) (by decide) (by decide) (by decide)).2.2.2 0 2
     (Desc.child (by decide) (by decide)) (by decide)).2⟩

/-- Default dirent record. -/
def dr0 : DirentRec := ⟨0, 0, 0, 0⟩

/-- Total name bytes of the first `i` children, the running name offset of
`compute_dirents`. -/
def namesBefore (nodes : List NodeData) (children : List Nat) (i : Nat) : Nat :=
  ((children.take i).map (fun c => (getN nodes c).name.length)).sum

theorem direntEntries_length (nodes : List NodeData) :
    ∀ (children : List Nat) (off : Nat),
      (direntEntries nodes off children).length = children.length := by
  intro children
  induction children with
  | nil => intro off; rfl
  | cons c cs ih =>
    intro off
    simp only [direntEntries, List.length_cons]
    rw [ih]

/-- The i-th dirent record of a directory block: inode number and d_type come
from the hardlink-resolved target of the i-th child, the name length from the
child itself, and the name offset is the running total of earlier names. -/
theorem direntEntries_getD (nodes : List NodeData) :
    ∀ (children : List Nat) (off i : Nat), i < children.length →
      (direntEntries nodes off children).getD i dr0 =
        { inode_num := (getN nodes
            (follow_links nodes nodes.length (children.getD i 0))).inodeNum,
          d_type := node_get_dtype (getN nodes
            (follow_links nodes nodes.length (children.getD i 0))).mode,
          name_len := (getN nodes (children.getD i 0)).name.length,
          name_offset := off + namesBefore nodes children i } := by
  intro children
  induction children with
  | nil =>
    intro off i hi
    simp at hi
  | cons c cs ih =>
    intro off i hi
    cases i with
    | zero =>
      simp [direntEntries, namesBefore, List.getD_cons_zero]
    | succ i1 =>
      have hi1 : i1 < cs.length := by simpa using hi
      simp only [direntEntries, List.getD_cons_succ]
      rw [ih _ i1 hi1]
      have : namesBefore nodes (c :: cs) (i1 + 1) =
          (getN nodes c).name.length + namesBefore nodes cs i1 := by
        simp [namesBefore, List.take_succ_cons]
      rw [this]
      have : off + (getN nodes c).name.length + namesBefore nodes cs i1 =
          off + ((getN nodes c).name.length + namesBefore nodes cs i1) := by omega
      rw [← this]

/-- C2: in a successful run, a directory child whose `link_to` is set
contributes a dirent whose inode number and d_type come from the terminal
target of the hardlink chain, and the inode table holds exactly one fixed-size
record per visited node, so no extra record is emitted for the alias beyond
the one slot of its own BFS index. -/
theorem hardlink_dirent_entry (fs : FS) (hok : writeOk fs = true)
    (n i : Nat) (hi : i < (getN (writeRes fs).nodes n).children.length)
    (hlink : ((getN (writeRes fs).nodes
        ((getN (writeRes fs).nodes n).children.getD i 0)).linkTo).isSome = true) :
    (direntEntries (writeRes fs).nodes 0
        (getN (writeRes fs).nodes n).children).getD i dr0 =
      { inode_num := (getN (writeRes fs).nodes
          (follow_links (writeRes fs).nodes (writeRes fs).nodes.length
            ((getN (writeRes fs).nodes n).children.getD i 0))).inodeNum,
        d_type := node_get_dtype (getN (writeRes fs).nodes
          (follow_links (writeRes fs).nodes (writeRes fs).nodes.length
            ((getN (writeRes fs).nodes n).children.getD i 0))).mode,
        name_len := (getN (writeRes fs).nodes
          ((getN (writeRes fs).nodes n).children.getD i 0)).name.length,
        name_offset := namesBefore (writeRes fs).nodes
          (getN (writeRes fs).nodes n).children i } ∧
    (inodeTableBytes (writeRes fs).nodes (writeRes fs).visited).length =
      88 * (writeRes fs).visited.length := by
  constructor
  · have h := direntEntries_getD (writeRes fs).nodes
      (getN (writeRes fs).nodes n).children 0 i hi
    rw [h]
    congr 1
    exact Nat.zero_add _
  · exact inodeTableBytes_length _ _

/-- Witness for C2 at `fsHL`: the dirent for the alias (first child after
sorting) carries the file's inode index 2 and d_type 8 (DT_REG), and the
inode table has exactly three records for three visited nodes. -/
theorem hardlink_dirent_entry_witness :
    (direntEntries (writeRes fsHL).nodes 0
        (getN (writeRes fsHL).nodes 0).children).getD 0 dr0 =
      { inode_num := 2, d_type := 8, name_len := 5, name_offset := 0 } ∧
    (inodeTableBytes (writeRes fsHL).nodes (writeRes fsHL).visited).length =
      88 * (writeRes fsHL).visited.length :=
  hardlink_dirent_entry fsHL (by decide) 0 0 (by decide) (by decide)

theorem lexLe_cons_iff {x y : Nat} {xs ys : List Nat} :
    lexLe (x :: xs) (y :: ys) = true ↔ (x < y ∨ (x = y ∧ lexLe xs ys = true)) := by
  simp only [lexLe]
  by_cases h1 : x < y
  · simp [h1]
  · by_cases h2 : y < x
    · simp only [if_neg h1, if_pos h2]
      constructor
      · intro h
        exact Bool.noConfusion h
      · rintro (h | ⟨rfl, -⟩)
        · exact absurd h h1
        · exact absurd h2 (Nat.lt_irrefl _)
    · have hxy : x = y := by omega
      simp [if_neg h1, if_neg h2, hxy]

theorem lexLe_total : ∀ a b : List Nat, lexLe a b = true ∨ lexLe b a = true := by
  intro a
  induction a with
  | nil => intro b; left; rfl
  | cons x xs ih =>
    intro b
    cases b with
    | nil => right; rfl
    | cons y ys =>
      rcases Nat.lt_trichotomy x y with h | h | h
      · left; rw [lexLe_cons_iff]; exact Or.inl h
      · rcases ih ys with h2 | h2
        · left; rw [lexLe_cons_iff]; exact Or.inr ⟨h, h2⟩
        · right; rw [lexLe_cons_iff]; exact Or.inr ⟨h.symm, h2⟩
      · right; rw [lexLe_cons_iff]; exact Or.inl h

theorem lexLe_trans : ∀ a b c : List Nat,
    lexLe a b = true → lexLe b c = true → lexLe a c = true := by
  intro a
  induction a with
  | nil => intro b c h1 h2; rfl
  | cons x xs ih =>
    intro b c h1 h2
    cases b with
    | nil => simp [lexLe] at h1
    | cons y ys =>
      cases c with
      | nil => simp [lexLe] at h2
      | cons z zs =>
        rw [lexLe_cons_iff] at h1 h2 ⊢
        rcases h1 with h1 | ⟨rfl, h1⟩
        · rcases h2 with h2 | ⟨rfl, h2⟩
          · exact Or.inl (Nat.lt_trans h1 h2)
          · exact Or.inl h1
        · rcases h2 with h2 | ⟨rfl, h2⟩
          · exact Or.inl h2
          · exact Or.inr ⟨rfl, ih _ _ h1 h2⟩

theorem lexLe_antisymm : ∀ a b : List Nat,
    lexLe a b = true → lexLe b a = true → a = b := by
  intro a
  induction a with
  | nil =>
    intro b h1 h2
    cases b with
    | nil => rfl
    | cons y ys => simp [lexLe] at h2
  | cons x xs ih =>
    intro b h1 h2
    cases b with
    | nil => simp [lexLe] at h1
    | cons y ys =>
      rw [lexLe_cons_iff] at h1 h2
      rcases h1 with h1 | ⟨rfl, h1⟩
      · rcases h2 with h2 | ⟨h2e, -⟩
        · omega
        · omega
      · rcases h2 with h2 | ⟨-, h2⟩
        · omega
        · rw [ih _ h1 h2]

/-- Two sorted lists that are permutations of each other agree, provided the
order is antisymmetric on their elements. -/
theorem eq_of_perm_pairwise {α : Type} {r : α → α → Prop} :
    ∀ {l₁ l₂ : List α}, l₁.Perm l₂ → l₁.Pairwise r → l₂.Pairwise r →
      (∀ a b, a ∈ l₁ → b ∈ l₁ → r a b → r b a → a = b) → l₁ = l₂ := by
  intro l₁
  induction l₁ with
  | nil =>
    intro l₂ hp _ _ _
    exact hp.nil_eq
  | cons a t₁ ih =>
    intro l₂ hp hs₁ hs₂ hanti
    cases l₂ with
    | nil =>
      have := hp.length_eq
      simp at this
    | cons b t₂ =>
      by_cases hab : a = b
      · subst hab
        have ht : t₁ = t₂ :=
          ih hp.cons_inv (List.pairwise_cons.mp hs₁).2 (List.pairwise_cons.mp hs₂).2
            (fun a2 b2 ha hb =>
              hanti a2 b2 (List.mem_cons_of_mem _ ha) (List.mem_cons_of_mem _ hb))
        rw [ht]
      · exfalso
        have hbmem : b ∈ a :: t₁ := hp.mem_iff.mpr (List.mem_cons_self _ _)
        have hbt : b ∈ t₁ := by
          rcases List.mem_cons.mp hbmem with h | h
          · exact absurd h.symm hab
          · exact h
        have hamem : a ∈ b :: t₂ := hp.mem_iff.mp (List.mem_cons_self _ _)
        have hat : a ∈ t₂ := by
          rcases List.mem_cons.mp hamem with h | h
          · exact absurd h hab
          · exact h
        have hrab : r a b := (List.pairwise_cons.mp hs₁).1 b hbt
        have hrba : r b a := (List.pairwise_cons.mp hs₂).1 a hat
        exact hab (hanti a b (List.mem_cons_self _ _) (List.mem_cons_of_mem _ hbt)
          hrab hrba)

theorem map_pairwise_ne_inj {α β : Type} {f : α → β} :
    ∀ {l : List α}, (l.map f).Pairwise (fun x y => x ≠ y) →
      ∀ a ∈ l, ∀ b ∈ l, f a = f b → a = b := by
  intro l
  induction l with
  | nil =>
    intro _ a ha
    simp at ha
  | cons c cs ih =>
    intro hpw a ha b hb hf
    simp only [List.map_cons, List.pairwise_cons] at hpw
    obtain ⟨hhead, htail⟩ := hpw
    rcases List.mem_cons.mp ha with rfl | ha2 <;> rcases List.mem_cons.mp hb with rfl | hb2
    · rfl
    · exact absurd hf (hhead _ (List.mem_map_of_mem f hb2))
    · exact absurd hf.symm (hhead _ (List.mem_map_of_mem f ha2))
    · exact ih htail a ha2 b hb2 hf

/-- An admissible child sort: any function that returns a permutation of its
input, sorted by the key order (`qsort` with `cmp_nodes` is one). -/
def ChAdm (s : (Nat → List Nat) → List Nat → List Nat) : Prop :=
  ∀ (f : Nat → List Nat) (l : List Nat),
    (s f l).Perm l ∧ (s f l).Pairwise (fun a b => lexLe (f a) (f b) = true)

/-- An admissible xattr sort: a permutation sorted by key
(`qsort` with `cmp_xattr` is one). -/
def XaAdm (s : List (List Nat × List Nat) → List (List Nat × List Nat)) : Prop :=
  ∀ l, (s l).Perm l ∧ (s l).Pairwise (fun a b => lexLe a.1 b.1 = true)

theorem chSortCanon_adm : ChAdm chSortCanon := by
  intro f l
  haveI : IsTotal Nat (fun a b => lexLe (f a) (f b) = true) :=
    ⟨fun a b => lexLe_total (f a) (f b)⟩
  haveI : IsTrans Nat (fun a b => lexLe (f a) (f b) = true) :=
    ⟨fun a b c => lexLe_trans (f a) (f b) (f c)⟩
  exact ⟨List.perm_insertionSort _ l, List.sorted_insertionSort _ l⟩

theorem xaSortCanon_adm : XaAdm xaSortCanon := by
  intro l
  haveI : IsTotal (List Nat × List Nat) (fun a b => lexLe a.1 b.1 = true) :=
    ⟨fun a b => lexLe_total a.1 b.1⟩
  haveI : IsTrans (List Nat × List Nat) (fun a b => lexLe a.1 b.1 = true) :=
    ⟨fun a b c => lexLe_trans a.1 b.1 c.1⟩
  exact ⟨List.perm_insertionSort _ l, List.sorted_insertionSort _ l⟩

/-- A second admissible child sort, sorting the reversed input; it breaks no
tie the same way as `chSortCanon` would on equal keys. -/
def chSortRev (f : Nat → List Nat) (l : List Nat) : List Nat :=
  chSortCanon f l.reverse

/-- A second admissible xattr sort over the reversed input. -/
def xaSortRev (l : List (List Nat × List Nat)) : List (List Nat × List Nat) :=
  xaSortCanon l.reverse

theorem chSortRev_adm : ChAdm chSortRev := by
  intro f l
  obtain ⟨hp, hs⟩ := chSortCanon_adm f l.reverse
  exact ⟨hp.trans l.reverse_perm, hs⟩

theorem xaSortRev_adm : XaAdm xaSortRev := by
  intro l
  obtain ⟨hp, hs⟩ := xaSortCanon_adm l.reverse
  exact ⟨hp.trans l.reverse_perm, hs⟩

/-- Any two admissible child sorts agree on a list with pairwise distinct
keys. -/
theorem chSort_unique {s1 s2 : (Nat → List Nat) → List Nat → List Nat}
    (h1 : ChAdm s1) (h2 : ChAdm s2) (f : Nat → List Nat) (l : List Nat)
    (hdist : (l.map f).Pairwise (fun x y => x ≠ y)) :
    s1 f l = s2 f l := by
  obtain ⟨hperm1, hsort1⟩ := h1 f l
  obtain ⟨hperm2, hsort2⟩ := h2 f l
  refine eq_of_perm_pairwise (hperm1.trans hperm2.symm) hsort1 hsort2 ?_
  intro a b ha hb hab hba
  exact map_pairwise_ne_inj hdist a (hperm1.mem_iff.mp ha) b (hperm1.mem_iff.mp hb)
    (lexLe_antisymm _ _ hab hba)

/-- Any two admissible xattr sorts agree on a list with pairwise distinct
keys. -/
theorem xaSort_unique {s1 s2 : List (List Nat × List Nat) → List (List Nat × List Nat)}
    (h1 : XaAdm s1) (h2 : XaAdm s2) (l : List (List Nat × List Nat))
    (hdist : (l.map Prod.fst).Pairwise (fun x y => x ≠ y)) :
    s1 l = s2 l := by
  obtain ⟨hperm1, hsort1⟩ := h1 l
  obtain ⟨hperm2, hsort2⟩ := h2 l
  refine eq_of_perm_pairwise (hperm1.trans hperm2.symm) hsort1 hsort2 ?_
  intro a b ha hb hab hba
  exact map_pairwise_ne_inj hdist a (hperm1.mem_iff.mp ha) b (hperm1.mem_iff.mp hb)
    (lexLe_antisymm _ _ hab hba)

/-- Within every directory of the store, child names are pairwise distinct. -/
def NamesDistinct (nodes : List NodeData) : Prop :=
  ∀ n, n < nodes.length →
    ((getN nodes n).children.map (fun c => (getN nodes c).name)).Pairwise
      (fun x y => x ≠ y)

instance (nodes : List NodeData) : Decidable (NamesDistinct nodes) := by
  unfold NamesDistinct; infer_instance

/-- Within every node of the store, xattr keys are pairwise distinct. -/
def KeysDistinct (nodes : List NodeData) : Prop :=
  ∀ n, n < nodes.length →
    ((getN nodes n).xattrs.map Prod.fst).Pairwise (fun x y => x ≠ y)

instance (nodes : List NodeData) : Decidable (KeysDistinct nodes) := by
  unfold KeysDistinct; infer_instance

theorem namesDistinct_all {nodes : List NodeData} (h : NamesDistinct nodes) (n : Nat) :
    ((getN nodes n).children.map (fun c => (getN nodes c).name)).Pairwise
      (fun x y => x ≠ y) := by
  by_cases hn : n < nodes.length
  · exact h n hn
  · rw [getN_out (Nat.le_of_not_lt hn)]
    exact List.Pairwise.nil

theorem keysDistinct_all {nodes : List NodeData} (h : KeysDistinct nodes) (n : Nat) :
    ((getN nodes n).xattrs.map Prod.fst).Pairwise (fun x y => x ≠ y) := by
  by_cases hn : n < nodes.length
  · exact h n hn
  · rw [getN_out (Nat.le_of_not_lt hn)]
    exact List.Pairwise.nil

theorem namesDistinct_update {nodes : List NodeData} {n : Nat} {nd : NodeData}
    (hname : nd.name = (getN nodes n).name)
    (hch : nd.children.Perm (getN nodes n).children)
    (hn : NamesDistinct nodes) : NamesDistinct (nodes.set n nd) := by
  have hnamept : ∀ c, (getN (nodes.set n nd) c).name = (getN nodes c).name := by
    intro c
    rw [getN_set]
    split
    · rename_i hc
      obtain ⟨rfl, -⟩ := hc
      exact hname
    · rfl
  intro m hm
  rw [List.length_set] at hm
  rw [getN_set]
  split
  · rename_i hc
    obtain ⟨rfl, -⟩ := hc
    rw [funext hnamept]
    exact (List.Perm.pairwise_iff (fun h => h.symm) (hch.map _)).mpr
      (namesDistinct_all hn m)
  · rw [funext hnamept]
    exact namesDistinct_all hn m

theorem keysDistinct_update {nodes : List NodeData} {n : Nat} {nd : NodeData}
    (hxa : nd.xattrs.Perm (getN nodes n).xattrs)
    (hk : KeysDistinct nodes) : KeysDistinct (nodes.set n nd) := by
  intro m hm
  rw [List.length_set] at hm
  rw [getN_set]
  split
  · rename_i hc
    obtain ⟨rfl, -⟩ := hc
    exact (List.Perm.pairwise_iff (fun h => h.symm) (hxa.map _)).mpr
      (keysDistinct_all hk m)
  · exact keysDistinct_all hk m

/-- The two sort functions are the only degrees of freedom of the walk: with
admissible sorts and distinct names and keys, the walk is a function of the
store alone. -/
theorem computeTreeAux_congr {sc1 sc2 : (Nat → List Nat) → List Nat → List Nat}
    {sx1 sx2 : List (List Nat × List Nat) → List (List Nat × List Nat)}
    (h1 : ChAdm sc1) (h2 : XaAdm sx1) (h3 : ChAdm sc2) (h4 : XaAdm sx2) :
    ∀ (fuel : Nat) (queue : List Nat) (nodes : List NodeData) (idx : Nat),
      NamesDistinct nodes → KeysDistinct nodes →
      computeTreeAux sc1 sx1 fuel nodes queue idx =
        computeTreeAux sc2 sx2 fuel nodes queue idx := by
  intro fuel
  induction fuel with
  | zero =>
    intro queue nodes idx _ _
    cases queue <;> rfl
  | succ f ih =>
    intro queue nodes idx hnm hkd
    cases queue with
    | nil => rfl
    | cons n rest =>
      have hvn : visitNode sc1 sx1 nodes n idx = visitNode sc2 sx2 nodes n idx := by
        simp only [visitNode]
        rw [chSort_unique h1 h3 _ _ (namesDistinct_all hnm n),
          xaSort_unique h2 h4 _ (keysDistinct_all hkd n)]
      have hstep : visitStep sc1 sx1 nodes n idx = visitStep sc2 sx2 nodes n idx := by
        unfold visitStep visitEnq
        rw [hvn]
      simp only [computeTreeAux]
      rw [hstep]
      cases hres : visitStep sc2 sx2 nodes n idx with
      | error e => rfl
      | ok p =>
        obtain ⟨nodes2, enq⟩ := p
        have hp := visitStep_ok hres
        simp only [Prod.mk.injEq] at hp
        obtain ⟨h2n, -⟩ := hp
        have hnm2 : NamesDistinct nodes2 := by
          rw [h2n]
          exact namesDistinct_update rfl ((h3 _ _).1) hnm
        have hkd2 : KeysDistinct nodes2 := by
          rw [h2n]
          exact keysDistinct_update ((h4 _).1) hkd
        dsimp only
        rw [ih (rest ++ enq) nodes2 (idx + 1) hnm2 hkd2]

theorem namesDistinct_mark (fs : FS) (h : NamesDistinct fs.nodes) :
    NamesDistinct (fs.nodes.set fs.root { getN fs.nodes fs.root with inTree := true }) :=
  namesDistinct_update rfl (List.Perm.refl _) h

theorem keysDistinct_mark (fs : FS) (h : KeysDistinct fs.nodes) :
    KeysDistinct (fs.nodes.set fs.root { getN fs.nodes fs.root with inTree := true }) :=
  keysDistinct_update (List.Perm.refl _) h

/-- C1: the serialized image is independent of the sort implementation used
by `compute_tree`.  The two `qsort` calls are the only run-to-run freedom of
`lcfs_write_to` (the dedup table is keyed and probed by content only), so two
independent runs on a tree with distinct child names and distinct xattr keys
produce identical results — byte-identical output, and identical digests for
any digest function of the output stream. -/
theorem write_to_deterministic (fs : FS)
    (sc1 sc2 : (Nat → List Nat) → List Nat → List Nat)
    (sx1 sx2 : List (List Nat × List Nat) → List (List Nat × List Nat))
    (h1 : ChAdm sc1) (h2 : XaAdm sx1) (h3 : ChAdm sc2) (h4 : XaAdm sx2)
    (hnm : NamesDistinct fs.nodes) (hkd : KeysDistinct fs.nodes)
    (hacc : ∃ r, lcfs_write_to_with sc1 sx1 fs = .ok r) :
    lcfs_write_to_with sc1 sx1 fs = lcfs_write_to_with sc2 sx2 fs ∧
    ∀ dg : List Nat → List Nat,
      (lcfs_write_to_with sc1 sx1 fs).map (fun r => dg r.out) =
        (lcfs_write_to_with sc2 sx2 fs).map (fun r => dg r.out) := by
  have hcong : lcfs_write_to_with sc1 sx1 fs = lcfs_write_to_with sc2 sx2 fs := by
    unfold lcfs_write_to_with compute_tree
    rw [computeTreeAux_congr h1 h2 h3 h4 _ _ _ _ (namesDistinct_mark fs hnm)
      (keysDistinct_mark fs hkd)]
  exact ⟨hcong, fun dg => by rw [hcong]⟩

/-- Witness for C1: the canonical sort and the reversed-input sort yield the
same run on `fsA`. -/
theorem write_to_deterministic_witness :
    lcfs_write_to_with chSortCanon xaSortCanon fsA =
      lcfs_write_to_with chSortRev xaSortRev fsA :=
  (write_to_deterministic fsA chSortCanon chSortRev xaSortCanon xaSortRev
    chSortCanon_adm xaSortCanon_adm chSortRev_adm xaSortRev_adm
    (by decide) (by decide) ⟨writeRes fsA, writeOk_elim (by decide)⟩).1
